import Mathlib

/-!
Verification of the `jsonmatch` diff engine of the `gg` repository.

The engine (package `jsonmatch`) is specified in `spec.md` and exercised by
`jsonmatch/diff_test.go`.  The definitions below are a shallow embedding of
that engine: the parsed JSON value tree (`JSONValue`, order-preserving
objects), the caller-declared expectation tree (`ExpectedNode`, the closed
tagged union of §3/§9 of the spec), the canonical encoder (`marshalGo`),
the capture resolver, the recursive diff walker (`compareV`) and the
byte-level entry point (`DiffAgainst`) including UTF-8 decoding and an
order-preserving JSON parser.
-/

/-- Modelled from the spec (§3 ActualValue): the parsed JSON value tree.
Objects are order-preserving association lists: iteration order equals the
textual order of keys in the source payload. Numbers are modelled as
integers, which covers every payload in the repository. -/
inductive JSONValue where
  | null
  | bool (b : Bool)
  | num (n : Int)
  | str (s : String)
  | arr (items : List JSONValue)
  | obj (fields : List (String × JSONValue))

/-- The six JSON-level types distinguished by the diff walker (§4.3). -/
inductive JKind where
  | null | bool | num | str | arr | obj
deriving DecidableEq, Repr

/-- JSON-level type of a parsed value. -/
def JSONValue.kind : JSONValue → JKind
  | .null => .null
  | .bool _ => .bool
  | .num _ => .num
  | .str _ => .str
  | .arr _ => .arr
  | .obj _ => .obj

/-- Decimal digit character. -/
def digitChar (d : Nat) : Char := Char.ofNat (48 + d)

/-- Fuel-driven most-significant-first decimal digits of a natural number. -/
def natDigitsAux : Nat → Nat → List Char
  | 0, _ => []
  | f + 1, n => if n < 10 then [digitChar n] else natDigitsAux f (n / 10) ++ [digitChar (n % 10)]

/-- Decimal digits of a natural number. -/
def natDigits (n : Nat) : List Char := natDigitsAux (n + 1) n

/-- Canonical rendering of an integer, as in Go's `encoding/json`. -/
def intChars (n : Int) : List Char :=
  if n < 0 then '-' :: natDigits n.natAbs else natDigits n.natAbs

/-- String-body escaping used by the canonical encoder: quotes and
backslashes are escaped, everything else is emitted verbatim. -/
def escapeChar (c : Char) : List Char :=
  if c = '"' then ['\\', '"']
  else if c = '\\' then ['\\', '\\']
  else [c]

/-- Escape a whole string body. -/
def escapeChars : List Char → List Char
  | [] => []
  | c :: rest => escapeChar c ++ escapeChars rest

/-- Canonical rendering of a JSON string literal. -/
def strChars (s : String) : List Char := '"' :: escapeChars s.data ++ ['"']

mutual

/-- Modelled from the spec (§4.1): canonical JSON text of a parsed tree,
object keys in stored order, no whitespace. -/
def renderChars : JSONValue → List Char
  | .null => ['n', 'u', 'l', 'l']
  | .bool b => if b then ['t', 'r', 'u', 'e'] else ['f', 'a', 'l', 's', 'e']
  | .num n => intChars n
  | .str s => strChars s
  | .arr items => '[' :: renderList items ++ [']']
  | .obj fields => '{' :: renderFields fields ++ ['}']

/-- Comma-separated renderings of array items. -/
def renderList : List JSONValue → List Char
  | [] => []
  | [v] => renderChars v
  | v :: rest => renderChars v ++ ',' :: renderList rest

/-- Comma-separated renderings of object fields. -/
def renderFields : List (String × JSONValue) → List Char
  | [] => []
  | [(k, v)] => strChars k ++ ':' :: renderChars v
  | (k, v) :: rest => strChars k ++ ':' :: renderChars v ++ ',' :: renderFields rest

end

/-- Canonical JSON text of a parsed tree, as a string. -/
def renderJ (v : JSONValue) : String := ⟨renderChars v⟩

mutual

/-- Boolean structural equality on JSON trees. -/
def jeq : JSONValue → JSONValue → Bool
  | .null, .null => true
  | .bool a, .bool b => a == b
  | .num a, .num b => a == b
  | .str a, .str b => a == b
  | .arr a, .arr b => jeqList a b
  | .obj a, .obj b => jeqFields a b
  | _, _ => false

/-- Boolean structural equality on JSON tree lists. -/
def jeqList : List JSONValue → List JSONValue → Bool
  | [], [] => true
  | a :: as_, b :: bs => jeq a b && jeqList as_ bs
  | _, _ => false

/-- Boolean structural equality on JSON object field lists. -/
def jeqFields : List (String × JSONValue) → List (String × JSONValue) → Bool
  | [], [] => true
  | (k, a) :: as_, (l, b) :: bs => k == l && jeq a b && jeqFields as_ bs
  | _, _ => false

end

mutual

theorem jeq_iff_eq : ∀ a b : JSONValue, jeq a b = true ↔ a = b
  | .null, b => by cases b <;> simp [jeq]
  | .bool x, b => by cases b <;> simp [jeq]
  | .num x, b => by cases b <;> simp [jeq]
  | .str x, b => by cases b <;> simp [jeq]
  | .arr xs, b => by
      cases b <;> simp only [jeq] <;> try simp
      exact (jeqList_iff_eq xs _).trans (by simp)
  | .obj fs, b => by
      cases b <;> simp only [jeq] <;> try simp
      exact (jeqFields_iff_eq fs _).trans (by simp)

theorem jeqList_iff_eq : ∀ xs ys : List JSONValue, jeqList xs ys = true ↔ xs = ys
  | [], ys => by cases ys <;> simp [jeqList]
  | x :: xs, ys => by
      cases ys with
      | nil => simp [jeqList]
      | cons y ys =>
          simp only [jeqList, Bool.and_eq_true, jeq_iff_eq x y, jeqList_iff_eq xs ys]
          simp

theorem jeqFields_iff_eq : ∀ xs ys : List (String × JSONValue), jeqFields xs ys = true ↔ xs = ys
  | [], ys => by cases ys <;> simp [jeqFields]
  | (k, x) :: xs, ys => by
      cases ys with
      | nil => simp [jeqFields]
      | cons p ys =>
          obtain ⟨l, y⟩ := p
          simp [jeqFields, jeq_iff_eq x y, jeqFields_iff_eq xs ys, and_assoc]

end

instance : DecidableEq JSONValue := fun a b => decidable_of_iff _ (jeq_iff_eq a b)

/-- Destination types of capture slots that occur in the repository's tests:
`*string`-shaped destinations (including string-based named types) and
`*int`-shaped destinations. -/
inductive CaptureType where
  | int | str
deriving DecidableEq, Repr

/-- Go type name of a capture destination, as it appears in diagnostics. -/
def CaptureType.goName : CaptureType → String
  | .int => "int"
  | .str => "string"

/-- A value held by a capture destination. -/
inductive CapturedValue where
  | int (n : Int)
  | str (s : String)
deriving DecidableEq, Repr

/-- Zero value of a capture destination type. -/
def CaptureType.zero : CaptureType → CapturedValue
  | .int => .int 0
  | .str => .str ""

/-- Capture destinations are modelled as numbered slots; the store maps a
slot to the value currently held by the destination. Later writes shadow
earlier ones. -/
abbrev CaptureStore : Type := List (Nat × CapturedValue)

/-- Current contents of a capture destination (its type's zero value if the
slot was never initialised nor written). -/
def storeGet (s : CaptureStore) (slot : Nat) (ty : CaptureType) : CapturedValue :=
  match s.lookup slot with
  | some v => v
  | none => ty.zero

/-- Write a capture destination. -/
def storeSet (s : CaptureStore) (slot : Nat) (v : CapturedValue) : CaptureStore :=
  (slot, v) :: s

/-- JSON encoding of a captured value, used when a capture slot is
serialized by the canonical encoder (`CaptureField`'s `MarshalJSON`). -/
def CapturedValue.toJSON : CapturedValue → JSONValue
  | .int n => .num n
  | .str s => .str s

/-- Modelled from the spec (§3): one discrepancy record emitted by the diff
walker, addressed by an RFC 6901 JSON Pointer. -/
structure Diff where
  Kind : String
  Pointer : String
  ExpectedJSON : String
  ActualJSON : String
deriving DecidableEq, Repr

/-- Modelled from the spec (§3, §9): the caller-declared expectation tree as
a closed tagged union (the implementation itself is not part of `src/`; only
its tests are, so the vocabulary of `jsonmatch.Object`, `jsonmatch.Array`,
`jsonmatch.Scalar`, `jsonmatch.Null`, `jsonmatch.CaptureField` and arbitrary
host values is modelled from the spec's data model, normalized on
construction as §9 prescribes):
* `null`, `bool`, `int`, `str` — `jsonmatch.Null()` / `jsonmatch.Scalar`
  literals and plain scalar leaves;
* `array` — `jsonmatch.Array`, `[]any`, and typed slices of recognized
  composite element types (`[]jsonmatch.Object`, `[]map[string]any`), which
  normalize to element lists the walker recurses into;
* `object` — `jsonmatch.Object` / `map[string]any` (an unordered map whose
  anonymous enumeration order is recorded in the list order);
* `capture` — `jsonmatch.CaptureField(&dst)`;
* `hostStruct`, `hostMap`, `hostSlice` — host-language composite types the
  engine does not specifically recognize (arbitrary structs, maps with
  non-`string` key types, slices of unrecognized element types): compared
  as opaque values after canonical encoding; structs marshal their fields in
  declaration order, maps marshal with keys sorted alphabetically;
* `failing` — a value whose custom `MarshalJSON` returns an error, with its
  Go debug representation and type name. -/
inductive ExpectedNode where
  | null
  | bool (b : Bool)
  | int (n : Int)
  | str (s : String)
  | array (xs : List ExpectedNode)
  | object (fs : List (String × ExpectedNode))
  | capture (slot : Nat) (ty : CaptureType)
  | hostStruct (fs : List (String × ExpectedNode))
  | hostMap (fs : List (String × ExpectedNode))
  | hostSlice (xs : List ExpectedNode)
  | failing (goRepr tyName : String)

/-- Byte-wise lexicographic comparison of character lists (the order in
which Go's `encoding/json` sorts map keys). -/
def charListLE : List Char → List Char → Bool
  | [], _ => true
  | _ :: _, [] => false
  | a :: as_, b :: bs =>
      if a.toNat < b.toNat then true
      else if b.toNat < a.toNat then false
      else charListLE as_ bs

theorem charListLE_total : ∀ as_ bs, charListLE as_ bs = true ∨ charListLE bs as_ = true
  | [], _ => .inl rfl
  | _ :: _, [] => .inr rfl
  | a :: as_, b :: bs => by
      by_cases h1 : a.toNat < b.toNat
      · exact .inl (by simp [charListLE, h1])
      · by_cases h2 : b.toNat < a.toNat
        · exact .inr (by simp [charListLE, h2])
        · rcases charListLE_total as_ bs with h | h
          · exact .inl (by simp [charListLE, h1, h2, h])
          · exact .inr (by simp [charListLE, h1, h2, h])

theorem char_toNat_inj {a b : Char} (h : a.toNat = b.toNat) : a = b := by
  have := congrArg Char.ofNat h
  rwa [Char.ofNat_toNat, Char.ofNat_toNat] at this

theorem charListLE_trans : ∀ as_ bs cs, charListLE as_ bs = true → charListLE bs cs = true →
    charListLE as_ cs = true
  | [], _, _ => fun _ _ => rfl
  | a :: as_, [], cs => by intro h; simp [charListLE] at h
  | a :: as_, b :: bs, [] => by intro _ h; simp [charListLE] at h
  | a :: as_, b :: bs, c :: cs => by
      intro h1 h2
      simp only [charListLE] at h1 h2 ⊢
      split at h1
      · rename_i hab
        split at h2
        · rename_i hbc; simp [show a.toNat < c.toNat by omega]
        · split at h2
          · simp at h2
          · rename_i hbc hcb
            simp [show a.toNat < c.toNat by omega]
      · split at h1
        · simp at h1
        · rename_i hab hba
          split at h2
          · rename_i hbc; simp [show a.toNat < c.toNat by omega]
          · split at h2
            · simp at h2
            · rename_i hbc hcb
              have hac : ¬a.toNat < c.toNat := by omega
              have hca : ¬c.toNat < a.toNat := by omega
              rw [if_neg hac, if_neg hca]
              exact charListLE_trans as_ bs cs h1 h2

theorem charListLE_antisymm : ∀ as_ bs, charListLE as_ bs = true → charListLE bs as_ = true →
    as_ = bs
  | [], [] => fun _ _ => rfl
  | [], _ :: _ => by intro _ h; simp [charListLE] at h
  | _ :: _, [] => by intro h _; simp [charListLE] at h
  | a :: as_, b :: bs => by
      intro h1 h2
      simp only [charListLE] at h1 h2
      split at h1
      · rename_i hab
        rw [if_neg (by omega), if_pos hab] at h2
        simp at h2
      · split at h1
        · simp at h1
        · rename_i hab hba
          rw [if_neg (by omega), if_neg (by omega)] at h2
          have : a = b := char_toNat_inj (by omega)
          rw [this, charListLE_antisymm as_ bs h1 h2]

/-- Alphabetical (byte-wise) order on strings. -/
def strLE (a b : String) : Bool := charListLE a.data b.data

/-- Key order used when maps marshal with sorted keys. -/
def keyLE {β : Type} (a b : String × β) : Prop := strLE a.1 b.1 = true

instance {β : Type} : DecidableRel (keyLE (β := β)) := fun a b =>
  inferInstanceAs (Decidable (_ = true))

instance {β : Type} : IsTotal (String × β) keyLE :=
  ⟨fun a b => charListLE_total a.1.data b.1.data⟩

instance {β : Type} : IsTrans (String × β) keyLE :=
  ⟨fun a b c => charListLE_trans a.1.data b.1.data c.1.data⟩

/-- Sort an association list alphabetically by key. -/
def sortByKey {β : Type} (l : List (String × β)) : List (String × β) :=
  List.insertionSort keyLE l

mutual

/-- Modelled from the spec (§4.1 Canonical Encoder): serialize an expected
node to a parsed canonical JSON tree using Go's standard encoding rules
(struct fields in declaration order, map keys sorted alphabetically);
`none` models a marshaling error. A capture slot serializes to the JSON
encoding of its destination's current contents. -/
def marshalGo (s : CaptureStore) : ExpectedNode → Option JSONValue
  | .null => some .null
  | .bool b => some (.bool b)
  | .int n => some (.num n)
  | .str t => some (.str t)
  | .array xs => (marshalList s xs).map .arr
  | .object fs => (marshalFields s fs).map fun l => .obj (sortByKey l)
  | .capture slot ty => some (storeGet s slot ty).toJSON
  | .hostStruct fs => (marshalFields s fs).map .obj
  | .hostMap fs => (marshalFields s fs).map fun l => .obj (sortByKey l)
  | .hostSlice xs => (marshalList s xs).map .arr
  | .failing _ _ => none

/-- Serialize a list of expected nodes; fails if any element fails. -/
def marshalList (s : CaptureStore) : List ExpectedNode → Option (List JSONValue)
  | [] => some []
  | v :: rest =>
      match marshalGo s v, marshalList s rest with
      | some j, some js => some (j :: js)
      | _, _ => none

/-- Serialize the fields of an expected object; fails if any value fails. -/
def marshalFields (s : CaptureStore) :
    List (String × ExpectedNode) → Option (List (String × JSONValue))
  | [] => some []
  | (k, v) :: rest =>
      match marshalGo s v, marshalFields s rest with
      | some j, some js => some ((k, j) :: js)
      | _, _ => none

end

/-- Diagnostic placeholder substituted for the expected-side text of a node
whose canonical encoding failed. The format is pinned by
`TestCanonicalizesActualPayload` (diff_test.go line 112): the fixed prefix
`<not marshalable to JSON, %#v is ` followed by the value's Go debug
representation. -/
def notMarshalableText : ExpectedNode → String
  | .failing goRepr _ => "<not marshalable to JSON, %#v is " ++ goRepr ++ ">"
  | _ => "<not marshalable to JSON>"

/-- Canonical JSON text of an expected node: the rendering of its canonical
encoding, or the diagnostic placeholder if encoding fails. -/
def expectedCanon (s : CaptureStore) (e : ExpectedNode) : String :=
  match marshalGo s e with
  | some j => renderJ j
  | none => notMarshalableText e

mutual

/-- Recursively sort all object key lists; canonical-form normalization used
for the order-insensitive full-value equality of opaque nodes. -/
def sortKeysRec : JSONValue → JSONValue
  | .null => .null
  | .bool b => .bool b
  | .num n => .num n
  | .str s => .str s
  | .arr items => .arr (sortKeysList items)
  | .obj fields => .obj (sortByKey (sortKeysFields fields))

/-- `sortKeysRec` on each element of a list. -/
def sortKeysList : List JSONValue → List JSONValue
  | [] => []
  | v :: rest => sortKeysRec v :: sortKeysList rest

/-- `sortKeysRec` on each value of a field list. -/
def sortKeysFields : List (String × JSONValue) → List (String × JSONValue)
  | [] => []
  | (k, v) :: rest => (k, sortKeysRec v) :: sortKeysFields rest

end

/-- Order-insensitive structural equality of two parsed JSON trees: equality
after recursively sorting all object keys. This is the "compared on parsed
structure, not original representation" equality of §4.1. -/
def canonEq (a b : JSONValue) : Bool := jeq (sortKeysRec a) (sortKeysRec b)

/-- Canonical JSON text of an actual subtree: its rendering after
recursively sorting all object keys. This is the order-normalized
`canonical(actual)` that every diff's `ActualJSON` carries (§4.1, §4.3,
§4.4), pinned by `TestCanonicalizesActualPayload` to be alphabetically
sorted for every source key order of the payload. -/
def canonicalJ (a : JSONValue) : String := renderJ (sortKeysRec a)

/-- RFC 6901 escaping of one character of a JSON Pointer token. -/
def escapePointerChar (c : Char) : List Char :=
  if c = '~' then ['~', '0'] else if c = '/' then ['~', '1'] else [c]

/-- RFC 6901 escaping of a JSON Pointer token. -/
def escapePointerChars : List Char → List Char
  | [] => []
  | c :: rest => escapePointerChar c ++ escapePointerChars rest

/-- Extend a JSON Pointer by an object key token. -/
def childPath (path key : String) : String :=
  path ++ "/" ++ ⟨escapePointerChars key.data⟩

/-- Extend a JSON Pointer by an array index token. -/
def idxPath (path : String) (i : Nat) : String := path ++ "/" ++ ⟨natDigits i⟩

/-- Placeholder text for a key or index present on only one side. -/
def missingText : String := "<missing>"

/-- The single diff emitted at a JSON-level type boundary (§4.3): canonical
texts on both sides. -/
def typeMismatchDiff (s : CaptureStore) (e : ExpectedNode) (a : JSONValue)
    (path : String) : Diff :=
  ⟨"type mismatch", path, expectedCanon s e, canonicalJ a⟩

/-- The type of one node's comparator: store in, actual subtree and current
path, diffs and store out. -/
abbrev Cmp := CaptureStore → JSONValue → String → List Diff × CaptureStore

/-- Modelled from the spec (§4.4 Capture Resolver): decode an actual subtree
into a capture destination of the given type, following Go's
`json.Unmarshal` conventions: `null` succeeds without writing, a matching
scalar succeeds with the decoded value, anything else fails with
`json: cannot unmarshal <json type> into Go value of type <go type>`. -/
def capDecode (ty : CaptureType) (a : JSONValue) : Except String (Option CapturedValue) :=
  match a with
  | .null => .ok none
  | .num n =>
      match ty with
      | .int => .ok (some (.int n))
      | .str => .error ("json: cannot unmarshal number into Go value of type " ++ ty.goName)
  | .str t =>
      match ty with
      | .str => .ok (some (.str t))
      | .int => .error ("json: cannot unmarshal string into Go value of type " ++ ty.goName)
  | .bool _ => .error ("json: cannot unmarshal bool into Go value of type " ++ ty.goName)
  | .arr _ => .error ("json: cannot unmarshal array into Go value of type " ++ ty.goName)
  | .obj _ => .error ("json: cannot unmarshal object into Go value of type " ++ ty.goName)

/-- Modelled from the spec (§4.4): a capture slot is intercepted before type
comparison; on decode success the destination is written and the slot is an
automatic match, on failure exactly one diagnostic diff is emitted and the
destination is left unmodified. -/
def resolveCapture (slot : Nat) (ty : CaptureType) : Cmp := fun s a path =>
  match capDecode ty a with
  | .ok none => ([], s)
  | .ok (some v) => ([], storeSet s slot v)
  | .error msg =>
      ([⟨"cannot unmarshal into capture slot (" ++ msg ++ ")", path,
         "<capture slot of type *" ++ ty.goName ++ ">", canonicalJ a⟩], s)

/-- Modelled from the spec (§4.1, §4.4): comparison of a node the walker
does not recurse into. The node is canonically encoded; encoding failure
forces a type mismatch with the diagnostic placeholder; otherwise the
encoding is compared with the actual subtree as an opaque whole
(order-insensitive full-value equality on parsed structure). -/
def opaqueCompare (e : ExpectedNode) : Cmp := fun s a path =>
  match marshalGo s e with
  | none => ([⟨"type mismatch", path, notMarshalableText e, canonicalJ a⟩], s)
  | some j =>
      if j.kind = a.kind then
        if canonEq j a then ([], s)
        else ([⟨"value mismatch", path, renderJ j, canonicalJ a⟩], s)
      else ([⟨"type mismatch", path, renderJ j, canonicalJ a⟩], s)

/-- Diffs for array indices present only on the actual side (§4.3). -/
def trailingActualDiffs (path : String) : Nat → List JSONValue → List Diff
  | _, [] => []
  | i, a :: rest =>
      ⟨"value mismatch", idxPath path i, missingText, canonicalJ a⟩ ::
        trailingActualDiffs path (i + 1) rest

/-- Modelled from the spec (§4.3): lockstep walk of an array, indices in
ascending order; indices present on one side only produce `<missing>`
value-mismatch diffs. -/
def walkArray : List (ExpectedNode × Cmp) → List JSONValue → Nat → String →
    CaptureStore → List Diff × CaptureStore
  | [], as_, i, path, s => (trailingActualDiffs path i as_, s)
  | (e, _) :: rest, [], i, path, s =>
      let r := walkArray rest [] (i + 1) path s
      (⟨"value mismatch", idxPath path i, expectedCanon s e, missingText⟩ :: r.1, r.2)
  | (_, c) :: rest, a :: as_, i, path, s =>
      let r1 := c s a (idxPath path i)
      let r2 := walkArray rest as_ (i + 1) path r1.2
      (r1.1 ++ r2.1, r2.2)

/-- Modelled from the spec (§4.3): first phase of the object walk, driven by
the actual side's key order; keys present in both sides recurse, keys absent
from the expected side produce `<missing>` value-mismatch diffs. -/
def walkObjActual (cfs : List (String × Cmp)) : List (String × JSONValue) → String →
    CaptureStore → List Diff × CaptureStore
  | [], _, s => ([], s)
  | (k, av) :: rest, path, s =>
      match cfs.lookup k with
      | some c =>
          let r1 := c s av (childPath path k)
          let r2 := walkObjActual cfs rest path r1.2
          (r1.1 ++ r2.1, r2.2)
      | none =>
          let r := walkObjActual cfs rest path s
          (⟨"value mismatch", childPath path k, missingText, canonicalJ av⟩ :: r.1, r.2)

/-- Modelled from the spec (§4.3, §9): second phase of the object walk —
keys present only on the expected side, in the deterministic
(alphabetical) order required by §4.3, each yielding a `<missing>`
value-mismatch diff. -/
def missingKeyDiffs (s : CaptureStore) (path : String) (actualKeys : List String) :
    List (String × ExpectedNode) → List Diff
  | [] => []
  | (k, e) :: rest =>
      if actualKeys.contains k then missingKeyDiffs s path actualKeys rest
      else ⟨"value mismatch", childPath path k, expectedCanon s e, missingText⟩ ::
        missingKeyDiffs s path actualKeys rest

mutual

/-- Modelled from the spec (§4.3 Diff Walker): the recursive comparator.
Capture slots are intercepted first; recognized composites recurse when the
JSON-level types agree; a type boundary yields exactly one `type mismatch`
diff and no recursion beneath it; unrecognized host values are compared
opaquely. -/
def compareV : ExpectedNode → Cmp
  | .capture slot ty => resolveCapture slot ty
  | .null => fun s a path =>
      match a with
      | .null => ([], s)
      | _ => ([typeMismatchDiff s .null a path], s)
  | .bool b => fun s a path =>
      match a with
      | .bool b' =>
          if b = b' then ([], s)
          else ([⟨"value mismatch", path, renderJ (.bool b), renderJ (.bool b')⟩], s)
      | _ => ([typeMismatchDiff s (.bool b) a path], s)
  | .int n => fun s a path =>
      match a with
      | .num m =>
          if n = m then ([], s)
          else ([⟨"value mismatch", path, renderJ (.num n), renderJ (.num m)⟩], s)
      | _ => ([typeMismatchDiff s (.int n) a path], s)
  | .str t => fun s a path =>
      match a with
      | .str u =>
          if t = u then ([], s)
          else ([⟨"value mismatch", path, renderJ (.str t), renderJ (.str u)⟩], s)
      | _ => ([typeMismatchDiff s (.str t) a path], s)
  | .array xs => fun s a path =>
      match a with
      | .arr as_ => walkArray (compareList xs) as_ 0 path s
      | _ => ([typeMismatchDiff s (.array xs) a path], s)
  | .object fs => fun s a path =>
      match a with
      | .obj afs =>
          let r := walkObjActual (compareFieldsFns fs) afs path s
          (r.1 ++ missingKeyDiffs r.2 path (afs.map Prod.fst) (sortByKey fs), r.2)
      | _ => ([typeMismatchDiff s (.object fs) a path], s)
  | .hostStruct fs => opaqueCompare (.hostStruct fs)
  | .hostMap fs => opaqueCompare (.hostMap fs)
  | .hostSlice xs => opaqueCompare (.hostSlice xs)
  | .failing r t => opaqueCompare (.failing r t)

/-- Pair each array element with its comparator. -/
def compareList : List ExpectedNode → List (ExpectedNode × Cmp)
  | [] => []
  | v :: rest => (v, compareV v) :: compareList rest

/-- Pair each object field with its value's comparator. -/
def compareFieldsFns : List (String × ExpectedNode) → List (String × Cmp)
  | [] => []
  | (k, v) :: rest => (k, compareV v) :: compareFieldsFns rest

end

/-- Diff of an expected tree against an already-parsed actual tree, starting
at the document root. -/
def DiffAgainstTree (s : CaptureStore) (e : ExpectedNode) (a : JSONValue) :
    List Diff × CaptureStore :=
  compareV e s a ""

/-- JSON insignificant whitespace. -/
def isWs (c : Char) : Bool := c = ' ' || c = '\t' || c = '\n' || c = '\r'

/-- Skip leading JSON whitespace. -/
def skipWs : List Char → List Char
  | [] => []
  | c :: rest => if isWs c then skipWs rest else c :: rest

/-- ASCII decimal digit test. -/
def isDigitCh (c : Char) : Bool := 48 ≤ c.toNat && c.toNat ≤ 57

/-- Consume a run of decimal digits, most significant first. -/
def parseDigits : Nat → List Char → Nat × List Char
  | acc, [] => (acc, [])
  | acc, c :: rest =>
      if isDigitCh c then parseDigits (acc * 10 + (c.toNat - 48)) rest else (acc, c :: rest)

/-- Parse a JSON number (integer form). -/
def parseNumber : List Char → Option (JSONValue × List Char)
  | [] => none
  | c :: rest =>
      if c = '-' then
        match rest with
        | [] => none
        | c2 :: rest2 =>
            if isDigitCh c2 then
              let r := parseDigits (c2.toNat - 48) rest2
              some (.num (-(r.1 : Int)), r.2)
            else none
      else if isDigitCh c then
        let r := parseDigits (c.toNat - 48) rest
        some (.num (r.1 : Int), r.2)
      else none

/-- Unescape one character after a backslash in a JSON string literal. -/
def unescapeChar (c : Char) : Option Char :=
  if c = '"' then some '"'
  else if c = '\\' then some '\\'
  else if c = '/' then some '/'
  else if c = 'n' then some '\n'
  else if c = 't' then some '\t'
  else if c = 'r' then some '\r'
  else none

/-- Parse the body of a JSON string literal up to the closing quote. -/
def parseStringBody : List Char → Option (List Char × List Char)
  | [] => none
  | c :: rest =>
      if c = '"' then some ([], rest)
      else if c = '\\' then
        match rest with
        | [] => none
        | c2 :: rest2 =>
            match unescapeChar c2 with
            | some c' => (parseStringBody rest2).map (fun r => (c' :: r.1, r.2))
            | none => none
      else (parseStringBody rest).map (fun r => (c :: r.1, r.2))

mutual

/-- Modelled from the spec (§4.2 Value Tree Parser): fuel-driven recursive
descent parser producing the order-preserving JSON value tree. -/
def parseValue : Nat → List Char → Option (JSONValue × List Char)
  | 0, _ => none
  | f + 1, cs =>
      match skipWs cs with
      | [] => none
      | c :: rest =>
          if c = 'n' then
            match rest with
            | 'u' :: 'l' :: 'l' :: rest' => some (.null, rest')
            | _ => none
          else if c = 't' then
            match rest with
            | 'r' :: 'u' :: 'e' :: rest' => some (.bool true, rest')
            | _ => none
          else if c = 'f' then
            match rest with
            | 'a' :: 'l' :: 's' :: 'e' :: rest' => some (.bool false, rest')
            | _ => none
          else if c = '"' then (parseStringBody rest).map (fun r => (.str ⟨r.1⟩, r.2))
          else if c = '[' then
            match skipWs rest with
            | [] => none
            | c2 :: rest2 =>
                if c2 = ']' then some (.arr [], rest2)
                else (parseItems f (c2 :: rest2)).map (fun r => (.arr r.1, r.2))
          else if c = '{' then
            match skipWs rest with
            | [] => none
            | c2 :: rest2 =>
                if c2 = '}' then some (.obj [], rest2)
                else (parseMembers f (c2 :: rest2)).map (fun r => (.obj r.1, r.2))
          else parseNumber (c :: rest)

/-- Parse the comma-separated items of a non-empty JSON array, including the
closing bracket. -/
def parseItems : Nat → List Char → Option (List JSONValue × List Char)
  | 0, _ => none
  | f + 1, cs =>
      match parseValue f cs with
      | none => none
      | some (v, rest) =>
          match skipWs rest with
          | [] => none
          | c :: rest' =>
              if c = ',' then (parseItems f rest').map (fun r => (v :: r.1, r.2))
              else if c = ']' then some ([v], rest')
              else none

/-- Parse the comma-separated members of a non-empty JSON object, including
the closing brace, preserving source key order. -/
def parseMembers : Nat → List Char → Option (List (String × JSONValue) × List Char)
  | 0, _ => none
  | f + 1, cs =>
      match skipWs cs with
      | [] => none
      | c :: rest =>
          if c = '"' then
            match parseStringBody rest with
            | none => none
            | some (k, rest1) =>
                match skipWs rest1 with
                | [] => none
                | c2 :: rest2 =>
                    if c2 = ':' then
                      match parseValue f rest2 with
                      | none => none
                      | some (v, rest3) =>
                          match skipWs rest3 with
                          | [] => none
                          | c3 :: rest4 =>
                              if c3 = ',' then
                                (parseMembers f rest4).map (fun r => ((⟨k⟩, v) :: r.1, r.2))
                              else if c3 = '}' then some ([(⟨k⟩, v)], rest4)
                              else none
                    else none
          else none

end

/-- Parse a complete JSON document from characters; trailing content other
than whitespace is an error. -/
def parseChars (cs : List Char) : Except String JSONValue :=
  match parseValue (2 * cs.length + 2) cs with
  | some (v, rest) =>
      if (skipWs rest).isEmpty then .ok v
      else .error "invalid character after top-level value"
  | none => .error "invalid JSON"

/-- UTF-8 encoding of one character. -/
def utf8EncodeChar (c : Char) : List Nat :=
  if c.toNat < 0x80 then [c.toNat]
  else if c.toNat < 0x800 then [0xC0 + c.toNat / 64, 0x80 + c.toNat % 64]
  else if c.toNat < 0x10000 then
    [0xE0 + c.toNat / 4096, 0x80 + c.toNat / 64 % 64, 0x80 + c.toNat % 64]
  else
    [0xF0 + c.toNat / 262144, 0x80 + c.toNat / 4096 % 64, 0x80 + c.toNat / 64 % 64,
     0x80 + c.toNat % 64]

/-- UTF-8 encoding of a character sequence as a byte list. -/
def utf8Encode : List Char → List Nat
  | [] => []
  | c :: rest => utf8EncodeChar c ++ utf8Encode rest

/-- UTF-8 bytes of a string. -/
def strBytes (s : String) : List Nat := utf8Encode s.data

/-- UTF-8 continuation byte test. -/
def isCont (b : Nat) : Bool := 0x80 ≤ b && b < 0xC0

/-- Decode one UTF-8 encoded character from a byte list, rejecting overlong
encodings, surrogates and out-of-range code points. -/
def utf8DecodeOne : List Nat → Option (Char × List Nat)
  | [] => none
  | b0 :: rest =>
      if b0 < 0x80 then some (Char.ofNat b0, rest)
      else if b0 < 0xC0 then none
      else if b0 < 0xE0 then
        match rest with
        | b1 :: rest1 =>
            if isCont b1 then
              let n := (b0 - 0xC0) * 64 + (b1 - 0x80)
              if 0x80 ≤ n then some (Char.ofNat n, rest1) else none
            else none
        | _ => none
      else if b0 < 0xF0 then
        match rest with
        | b1 :: b2 :: rest2 =>
            if isCont b1 && isCont b2 then
              let n := (b0 - 0xE0) * 4096 + (b1 - 0x80) * 64 + (b2 - 0x80)
              if 0x800 ≤ n && (n < 0xD800 || 0xDFFF < n) then some (Char.ofNat n, rest2)
              else none
            else none
        | _ => none
      else if b0 < 0xF8 then
        match rest with
        | b1 :: b2 :: b3 :: rest3 =>
            if isCont b1 && isCont b2 && isCont b3 then
              let n := (b0 - 0xF0) * 262144 + (b1 - 0x80) * 4096 + (b2 - 0x80) * 64 + (b3 - 0x80)
              if 0x10000 ≤ n && n < 0x110000 then some (Char.ofNat n, rest3) else none
            else none
        | _ => none
      else none

/-- Fuel-driven strict UTF-8 decoding of a whole byte list. -/
def utf8Decode : Nat → List Nat → Option (List Char)
  | _, [] => some []
  | 0, _ => none
  | f + 1, bs =>
      match utf8DecodeOne bs with
      | some (c, rest) => (utf8Decode f rest).map (c :: ·)
      | none => none

/-- Modelled from the spec (§4.2): coerce raw payload bytes to valid text by
replacing invalid byte sequences with the Unicode replacement character. -/
def toValidUTF8Aux : Nat → List Nat → List Char
  | _, [] => []
  | 0, _ => []
  | f + 1, bs =>
      match utf8DecodeOne bs with
      | some (c, rest) => c :: toValidUTF8Aux f rest
      | none => Char.ofNat 0xFFFD :: toValidUTF8Aux f bs.tail

/-- Payload bytes coerced to valid text (replacement character for invalid
sequences). -/
def toValidUTF8 (bs : List Nat) : String := ⟨toValidUTF8Aux bs.length bs⟩

/-- Modelled from the spec (§4.2): parse payload bytes into the JSON value
tree, failing on malformed JSON or non-UTF-8 input. -/
def parsePayload (payload : List Nat) : Except String JSONValue :=
  match utf8Decode payload.length payload with
  | none => .error "invalid UTF-8 in payload"
  | some cs => parseChars cs

/-- Modelled from the spec (§4.3): the entry point
`match.DiffAgainst(payload)`. Parse failure yields exactly one root-level
`unmarshal error` diff; otherwise the recursive comparator runs at the root
with the empty pointer. The capture store is threaded in and out; "the
document didn't match" is always expressed as non-empty diff output, never
as a separate error channel. -/
def DiffAgainst (s : CaptureStore) (e : ExpectedNode) (payload : List Nat) :
    List Diff × CaptureStore :=
  match parsePayload payload with
  | .error msg =>
      ([⟨"unmarshal error (" ++ msg ++ ")", "", expectedCanon s e, toValidUTF8 payload⟩], s)
  | .ok a => compareV e s a ""

/-- JSON-level type of an expected node, when it has one: capture slots are
intercepted before type comparison (none), and a node whose canonical
encoding fails has no JSON-level type (none). -/
def kindE (s : CaptureStore) : ExpectedNode → Option JKind
  | .null => some .null
  | .bool _ => some .bool
  | .int _ => some .num
  | .str _ => some .str
  | .array _ => some .arr
  | .object _ => some .obj
  | .capture _ _ => none
  | .hostStruct fs => (marshalGo s (.hostStruct fs)).map JSONValue.kind
  | .hostMap fs => (marshalGo s (.hostMap fs)).map JSONValue.kind
  | .hostSlice xs => (marshalGo s (.hostSlice xs)).map JSONValue.kind
  | .failing _ _ => none

/-- The diff list an opaque comparison may produce: empty, or exactly one
ordinary mismatch at the containing node itself. -/
def singleMismatchAt (P : String) (ds : List Diff) : Prop :=
  ds = [] ∨ ∃ d, ds = [d] ∧ d.Pointer = P ∧
    (d.Kind = "type mismatch" ∨ d.Kind = "value mismatch")

theorem opaqueCompare_shape (e : ExpectedNode) (s : CaptureStore) (a : JSONValue)
    (P : String) : (opaqueCompare e s a P).2 = s ∧
    singleMismatchAt P (opaqueCompare e s a P).1 := by
  unfold opaqueCompare singleMismatchAt
  match h : marshalGo s e with
  | none => exact ⟨rfl, .inr ⟨_, rfl, rfl, .inl rfl⟩⟩
  | some j =>
      by_cases hk : j.kind = a.kind
      · by_cases hc : canonEq j a
        · simp [hk, hc]
        · simp only [hk, hc]
          exact ⟨rfl, .inr ⟨⟨"value mismatch", P, renderJ j, canonicalJ a⟩, by simp, rfl, .inr rfl⟩⟩
      · simp only [hk]
        exact ⟨rfl, .inr ⟨⟨"type mismatch", P, renderJ j, canonicalJ a⟩, by simp, rfl, .inl rfl⟩⟩

/-- **C2**: for the expected tree `Object(a: 1, b: Array(1,2))` and the
actual payload text `("b":[1,2,3],"c":true)` (in braces), `DiffAgainst`
returns exactly three value-mismatch diffs in exactly this order — `/b/2`
(actual-only index), `/c` (actual-only key), `/a` (expected-only key):
the actual payload's key order drives traversal first, and expected-only
keys are appended afterward. No capture slot is involved, so the capture
store is returned unchanged. -/
theorem C2_concrete_scenario_order :
    DiffAgainst [] (.object [("a", .int 1), ("b", .array [.int 1, .int 2])])
      (strBytes "\x7b\"b\":[1,2,3],\"c\":true\x7d") =
    ([⟨"value mismatch", "/b/2", "<missing>", "3"⟩,
      ⟨"value mismatch", "/c", "<missing>", "true"⟩,
      ⟨"value mismatch", "/a", "1", "<missing>"⟩], []) := by decide

/-- **C5, counterexample**: at the concrete input of
`TestCanonicalizesActualPayload`, the diff forced by an unmarshalable
expected node has `ExpectedJSON` equal to the literal text
`<not marshalable to JSON, %#v is jsonmatch_test.unmarshalableObject()>`
(with braces instead of the parentheses), i.e. a literal `%#v` followed by
the value's debug representation — not the claim's
`<debug-repr> is <type-name>` format. -/
theorem C5_placeholder_format_counterexample :
    (DiffAgainst []
      (.object [("data",
        .failing "jsonmatch_test.unmarshalableObject\x7b\x7d" "jsonmatch_test.unmarshalableObject")])
      (strBytes (renderJ (.obj [("data", .obj [("bar", .str "hello world"), ("foo", .num 42),
        ("qux", .arr [.num 5, .null, .num 15])])])))).1 =
      [⟨"type mismatch", "/data",
        "<not marshalable to JSON, %#v is jsonmatch_test.unmarshalableObject\x7b\x7d>",
        renderJ (.obj [("bar", .str "hello world"), ("foo", .num 42),
          ("qux", .arr [.num 5, .null, .num 15])])⟩] ∧
    "<not marshalable to JSON, %#v is jsonmatch_test.unmarshalableObject\x7b\x7d>" ≠
      "<not marshalable to JSON, jsonmatch_test.unmarshalableObject\x7b\x7d is jsonmatch_test.unmarshalableObject>" := by
  constructor
  · decide
  · decide

/-- **C5, amended**: when an expected node fails canonical JSON encoding,
the walker emits at that node's position a diff of Kind `type mismatch`
regardless of the actual value there, with `ExpectedJSON` equal to the
fixed diagnostic string `<not marshalable to JSON, %#v is <debug-repr>>`
(the `%#v` is literal, `<debug-repr>` is the value's Go debug
representation), and does not recurse beneath that node. -/
theorem C5_unmarshalable_forces_type_mismatch (s : CaptureStore) (r t : String)
    (a : JSONValue) (P : String) :
    compareV (.failing r t) s a P =
      ([⟨"type mismatch", P, "<not marshalable to JSON, %#v is " ++ r ++ ">", canonicalJ a⟩], s) :=
  rfl

/-- **C6**: for a capture slot in the expected tree, if the actual subtree
at that path decodes into the destination's type, the walker writes the
decoded value into the destination and emits no diff for that path or below
it; if decoding fails, it emits exactly one diff with Kind
`cannot unmarshal into capture slot (<underlying decode error>)`, Pointer
equal to that path, ExpectedJSON `<capture slot of type *T>`, ActualJSON the
canonical actual text, and leaves the destination unmodified. -/
theorem C6_capture_roundtrip (s : CaptureStore) (slot : Nat) (ty : CaptureType)
    (a : JSONValue) (P : String) :
    (∀ v, capDecode ty a = .ok (some v) →
      compareV (.capture slot ty) s a P = ([], storeSet s slot v)) ∧
    (∀ msg, capDecode ty a = .error msg →
      compareV (.capture slot ty) s a P =
        ([⟨"cannot unmarshal into capture slot (" ++ msg ++ ")", P,
           "<capture slot of type *" ++ ty.goName ++ ">", canonicalJ a⟩], s)) := by
  constructor
  · intro v h
    show resolveCapture slot ty s a P = _
    unfold resolveCapture
    rw [h]
  · intro msg h
    show resolveCapture slot ty s a P = _
    unfold resolveCapture
    rw [h]

/-- Witness for C6: the capture scenario of `TestCapturesFields` — a
string-typed destination captures `"abc"` at `/id`; an int-typed
destination rejects it with the exact Go decode error, leaving the store
untouched; and an object actual with non-alphabetical source key order is
rendered canonically (keys sorted) in the failure diff's ActualJSON. -/
theorem C6_capture_roundtrip_witness :
    compareV (.capture 0 .str) [] (.str "abc") "/id" = ([], storeSet [] 0 (.str "abc")) ∧
    compareV (.capture 0 .int) [] (.str "abc") "/id" =
      ([⟨"cannot unmarshal into capture slot (json: cannot unmarshal string into Go value of type int)",
         "/id", "<capture slot of type *int>", "\"abc\""⟩], []) ∧
    compareV (.capture 0 .int) [] (.obj [("b", .num 2), ("a", .num 1)]) "/id" =
      ([⟨"cannot unmarshal into capture slot (json: cannot unmarshal object into Go value of type int)",
         "/id", "<capture slot of type *int>", "\x7b\"a\":1,\"b\":2\x7d"⟩], []) :=
  ⟨(C6_capture_roundtrip [] 0 .str (.str "abc") "/id").1 (.str "abc") rfl,
   (C6_capture_roundtrip [] 0 .int (.str "abc") "/id").2
     "json: cannot unmarshal string into Go value of type int" rfl,
   (C6_capture_roundtrip [] 0 .int (.obj [("b", .num 2), ("a", .num 1)]) "/id").2
     "json: cannot unmarshal object into Go value of type int" rfl⟩

/-- **C7**: a capture slot nested inside a composite type the engine does
not specifically recognize (an arbitrary struct, a map with a non-string
key type, an unrecognized slice type) has no effect: the whole containing
value is compared opaquely — the capture store is never written, and the
result at the containing node is either empty or a single ordinary
value/type mismatch diff at the containing node's own pointer, never a
per-field capture-failure diagnostic below it. -/
theorem C7_capture_in_unrecognized_container_opaque (s : CaptureStore)
    (fs gs : List (String × ExpectedNode)) (xs : List ExpectedNode)
    (a : JSONValue) (P : String) :
    ((compareV (.hostStruct fs) s a P).2 = s ∧
      singleMismatchAt P (compareV (.hostStruct fs) s a P).1) ∧
    ((compareV (.hostMap gs) s a P).2 = s ∧
      singleMismatchAt P (compareV (.hostMap gs) s a P).1) ∧
    ((compareV (.hostSlice xs) s a P).2 = s ∧
      singleMismatchAt P (compareV (.hostSlice xs) s a P).1) :=
  ⟨opaqueCompare_shape (.hostStruct fs) s a P,
   opaqueCompare_shape (.hostMap gs) s a P,
   opaqueCompare_shape (.hostSlice xs) s a P⟩

/-- **C9**: a capture slot serializes, via the canonical encoder, to the
JSON encoding of its destination's current contents (this is
`CaptureField`'s `MarshalJSON`; its `UnmarshalJSON` side is the decode step
of the capture resolver, `capDecode`). Consequently, in the scenario of
`TestCapturesFields` where capture slots sit inside an unrecognized
`[]struct` container, the single opaque diff's expected side shows the
destinations' pre-call contents (`"unset"`). -/
theorem C9_capture_marshals_destination_contents :
    (∀ (s : CaptureStore) (slot : Nat) (ty : CaptureType),
      marshalGo s (.capture slot ty) = some (storeGet s slot ty).toJSON) ∧
    DiffAgainst [(0, .str "unset"), (1, .str "unset"), (2, .str "unset")]
      (.object [("objects", .hostSlice [
        .hostStruct [("id", .capture 0 .str), ("tags", .array [.str "foo"])],
        .hostStruct [("id", .capture 1 .str), ("tags", .array [.capture 2 .str])]])])
      (strBytes (renderJ (.obj [("objects", .arr [
        .obj [("id", .str "2cff2c65-f775-4ed5-8f86-be0998b19781"), ("tags", .arr [.str "foo"])],
        .obj [("id", .str "ce38aa5c-62ed-4367-a2f8-cbe2d73094a8"), ("tags", .arr [.str "bar"])]])]))) =
    ([⟨"value mismatch", "/objects",
       renderJ (.arr [.obj [("id", .str "unset"), ("tags", .arr [.str "foo"])],
                      .obj [("id", .str "unset"), ("tags", .arr [.str "unset"])]]),
       renderJ (.arr [
         .obj [("id", .str "2cff2c65-f775-4ed5-8f86-be0998b19781"), ("tags", .arr [.str "foo"])],
         .obj [("id", .str "ce38aa5c-62ed-4367-a2f8-cbe2d73094a8"), ("tags", .arr [.str "bar"])]])⟩],
     [(0, .str "unset"), (1, .str "unset"), (2, .str "unset")]) :=
  ⟨fun _ _ _ => rfl, by set_option maxRecDepth 40000 in decide⟩

/-- **C10**: typed slices of recognized composite element types
(`[]jsonmatch.Object`, `[]map[string]any`) normalize to element lists the
walker recurses into element-wise — capture slots inside their elements are
resolved per-field (first conjunct: the `TestCapturesFields` scenario
writes all three destinations and yields an empty diff), and mismatches
inside their elements are reported at per-element JSON Pointer paths
(second conjunct: a mismatch inside element 0 is reported at
`/users/0/name`, not on the slice as a whole). -/
theorem C10_recurses_into_typed_slices :
    DiffAgainst []
      (.object [("objects", .array [
        .object [("id", .capture 0 .str), ("tags", .hostSlice [.str "foo"])],
        .object [("id", .capture 1 .str), ("tags", .array [.capture 2 .str])]])])
      (strBytes (renderJ (.obj [("objects", .arr [
        .obj [("id", .str "2cff2c65-f775-4ed5-8f86-be0998b19781"), ("tags", .arr [.str "foo"])],
        .obj [("id", .str "ce38aa5c-62ed-4367-a2f8-cbe2d73094a8"), ("tags", .arr [.str "bar"])]])]))) =
    ([], [(2, .str "bar"), (1, .str "ce38aa5c-62ed-4367-a2f8-cbe2d73094a8"),
          (0, .str "2cff2c65-f775-4ed5-8f86-be0998b19781")]) ∧
    DiffAgainst [] (.object [("users", .array [.object [("name", .str "Alicia")]])])
      (strBytes (renderJ (.obj [("users", .arr [.obj [("name", .str "Alice")]])]))) =
    ([⟨"value mismatch", "/users/0/name", "\"Alicia\"", "\"Alice\""⟩], []) := by
  set_option maxRecDepth 40000 in exact ⟨by decide, by decide⟩

/-- **C3**: whenever the payload fails to parse (malformed JSON or invalid
UTF-8), `DiffAgainst` returns exactly one diff whose Kind has the form
`unmarshal error (<message>)`, whose Pointer is the empty string, whose
ExpectedJSON is the canonical text of the whole expected tree, and whose
ActualJSON is the payload coerced to valid text with the Unicode
replacement character; the mismatch is reported in the ordinary diff
output, since `DiffAgainst` has no separate error channel at all. -/
theorem C3_unmarshal_error_single_diff (s : CaptureStore) (e : ExpectedNode)
    (payload : List Nat) (msg : String) (h : parsePayload payload = .error msg) :
    DiffAgainst s e payload =
      ([⟨"unmarshal error (" ++ msg ++ ")", "", expectedCanon s e, toValidUTF8 payload⟩], s) := by
  unfold DiffAgainst
  rw [h]

/-- Witness for C3: the non-UTF-8 payload of `TestFailsOnUnmarshalError`
(`a\xffb\xc0\xafc\xff`) produces exactly the single root-level unmarshal
error diff, with the expected tree `Object(data: Array(23,42))` rendered
canonically on the expected side. -/
theorem C3_unmarshal_error_single_diff_witness :
    parsePayload [0x61, 0xff, 0x62, 0xC0, 0xAF, 0x63, 0xff] =
      .error "invalid UTF-8 in payload" ∧
    DiffAgainst [] (.object [("data", .array [.int 23, .int 42])])
        [0x61, 0xff, 0x62, 0xC0, 0xAF, 0x63, 0xff] =
      ([⟨"unmarshal error (invalid UTF-8 in payload)", "",
         renderJ (.obj [("data", .arr [.num 23, .num 42])]),
         toValidUTF8 [0x61, 0xff, 0x62, 0xC0, 0xAF, 0x63, 0xff]⟩], []) :=
  ⟨rfl,
   C3_unmarshal_error_single_diff [] (.object [("data", .array [.int 23, .int 42])])
     [0x61, 0xff, 0x62, 0xC0, 0xAF, 0x63, 0xff] "invalid UTF-8 in payload" rfl⟩

theorem opaque_type_mismatch (s : CaptureStore) (e : ExpectedNode) (a : JSONValue)
    (P : String) (j : JSONValue) (hj : marshalGo s e = some j)
    (hne : j.kind ≠ a.kind) :
    opaqueCompare e s a P = ([⟨"type mismatch", P, expectedCanon s e, canonicalJ a⟩], s) := by
  unfold opaqueCompare expectedCanon
  rw [hj]
  simp [hne]

/-- **C4**: if the expected node and the actual node disagree in JSON-level
type at a path `P`, the comparator at that node returns exactly one diff —
Kind `type mismatch`, Pointer `P`, canonical expected and actual texts —
and nothing else: recursion stops at the first type boundary, so no diff
with a pointer extending `P` is ever emitted from that subtree. -/
theorem C4_type_mismatch_short_circuit (s : CaptureStore) (e : ExpectedNode)
    (a : JSONValue) (P : String) (k : JKind) (hk : kindE s e = some k)
    (hne : k ≠ a.kind) :
    compareV e s a P = ([⟨"type mismatch", P, expectedCanon s e, canonicalJ a⟩], s) := by
  cases e with
  | null => cases a <;> simp_all [compareV, kindE, typeMismatchDiff, JSONValue.kind]
  | bool b => cases a <;> simp_all [compareV, kindE, typeMismatchDiff, JSONValue.kind]
  | int n => cases a <;> simp_all [compareV, kindE, typeMismatchDiff, JSONValue.kind]
  | str t => cases a <;> simp_all [compareV, kindE, typeMismatchDiff, JSONValue.kind]
  | array xs => cases a <;> simp_all [compareV, kindE, typeMismatchDiff, JSONValue.kind]
  | object fs => cases a <;> simp_all [compareV, kindE, typeMismatchDiff, JSONValue.kind]
  | capture slot ty => simp [kindE] at hk
  | hostStruct fs =>
      simp only [kindE, Option.map_eq_some'] at hk
      obtain ⟨j, hj, hjk⟩ := hk
      exact opaque_type_mismatch s _ a P j hj (by rw [hjk]; exact hne)
  | hostMap fs =>
      simp only [kindE, Option.map_eq_some'] at hk
      obtain ⟨j, hj, hjk⟩ := hk
      exact opaque_type_mismatch s _ a P j hj (by rw [hjk]; exact hne)
  | hostSlice xs =>
      simp only [kindE, Option.map_eq_some'] at hk
      obtain ⟨j, hj, hjk⟩ := hk
      exact opaque_type_mismatch s _ a P j hj (by rw [hjk]; exact hne)
  | failing r t => simp [kindE, marshalGo] at hk

/-- Witness for C4: an expected number against an actual object with
non-alphabetical source key order at path `/x` yields exactly the one
type-mismatch diff, with the actual side rendered canonically (keys
sorted). -/
theorem C4_type_mismatch_short_circuit_witness :
    compareV (.int 1) [] (.obj [("qux", .num 3), ("bar", .num 2)]) "/x" =
      ([⟨"type mismatch", "/x", "1", "\x7b\"bar\":2,\"qux\":3\x7d"⟩], []) :=
  C4_type_mismatch_short_circuit [] (.int 1) (.obj [("qux", .num 3), ("bar", .num 2)])
    "/x" .num rfl (by decide)


theorem char_valid_range (c : Char) :
    c.toNat < 0xD800 ∨ (0xDFFF < c.toNat ∧ c.toNat < 0x110000) := by
  have h := c.valid
  simp [UInt32.isValidChar, Nat.isValidChar, Char.toNat] at h
  exact h

theorem utf8DecodeOne_encodeChar (c : Char) (tail : List Nat) :
    utf8DecodeOne (utf8EncodeChar c ++ tail) = some (c, tail) := by
  have hv := char_valid_range c
  have hlt : c.toNat < 0x110000 := by rcases hv with h | ⟨_, h⟩ <;> omega
  unfold utf8EncodeChar
  by_cases h1 : c.toNat < 0x80
  · rw [if_pos h1]
    show utf8DecodeOne (c.toNat :: tail) = _
    simp only [utf8DecodeOne]
    rw [if_pos h1, Char.ofNat_toNat]
  · rw [if_neg h1]
    by_cases h2 : c.toNat < 0x800
    · rw [if_pos h2]
      have hdm := Nat.div_add_mod c.toNat 64
      have hm : c.toNat % 64 < 64 := Nat.mod_lt _ (by norm_num)
      show utf8DecodeOne ((0xC0 + c.toNat / 64) :: (0x80 + c.toNat % 64) :: tail) = _
      simp only [utf8DecodeOne]
      rw [if_neg (by omega), if_neg (by omega), if_pos (by omega)]
      rw [show isCont (0x80 + c.toNat % 64) = true by simp [isCont]; omega]
      simp only [if_true]
      rw [if_pos (by omega)]
      rw [show (0xC0 + c.toNat / 64 - 0xC0) * 64 + (0x80 + c.toNat % 64 - 0x80) = c.toNat by
        omega]
      rw [Char.ofNat_toNat]
    · rw [if_neg h2]
      by_cases h3 : c.toNat < 0x10000
      · rw [if_pos h3]
        have hdm := Nat.div_add_mod c.toNat 64
        have hdm2 := Nat.div_add_mod (c.toNat / 64) 64
        rw [Nat.div_div_eq_div_mul] at hdm2
        norm_num at hdm2
        have hm : c.toNat % 64 < 64 := Nat.mod_lt _ (by norm_num)
        have hm2 : c.toNat / 64 % 64 < 64 := Nat.mod_lt _ (by norm_num)
        show utf8DecodeOne ((0xE0 + c.toNat / 4096) :: (0x80 + c.toNat / 64 % 64) ::
          (0x80 + c.toNat % 64) :: tail) = _
        simp only [utf8DecodeOne]
        rw [if_neg (by omega), if_neg (by omega), if_neg (by omega), if_pos (by omega)]
        rw [show (isCont (0x80 + c.toNat / 64 % 64) && isCont (0x80 + c.toNat % 64)) = true by
          simp [isCont]; omega]
        simp only [if_true]
        rw [if_pos (by simp only [Bool.and_eq_true, Bool.or_eq_true, decide_eq_true_eq]; omega)]
        rw [show (0xE0 + c.toNat / 4096 - 0xE0) * 4096 + (0x80 + c.toNat / 64 % 64 - 0x80) * 64 +
            (0x80 + c.toNat % 64 - 0x80) = c.toNat by omega]
        rw [Char.ofNat_toNat]
      · rw [if_neg h3]
        have hdm := Nat.div_add_mod c.toNat 64
        have hdm2 := Nat.div_add_mod (c.toNat / 64) 64
        rw [Nat.div_div_eq_div_mul] at hdm2
        norm_num at hdm2
        have hdm3 := Nat.div_add_mod (c.toNat / 4096) 64
        rw [Nat.div_div_eq_div_mul] at hdm3
        norm_num at hdm3
        have hm : c.toNat % 64 < 64 := Nat.mod_lt _ (by norm_num)
        have hm2 : c.toNat / 64 % 64 < 64 := Nat.mod_lt _ (by norm_num)
        have hm3 : c.toNat / 4096 % 64 < 64 := Nat.mod_lt _ (by norm_num)
        show utf8DecodeOne ((0xF0 + c.toNat / 262144) :: (0x80 + c.toNat / 4096 % 64) ::
          (0x80 + c.toNat / 64 % 64) :: (0x80 + c.toNat % 64) :: tail) = _
        simp only [utf8DecodeOne]
        rw [if_neg (by omega), if_neg (by omega), if_neg (by omega), if_neg (by omega),
          if_pos (by omega)]
        rw [show (isCont (0x80 + c.toNat / 4096 % 64) && isCont (0x80 + c.toNat / 64 % 64) &&
            isCont (0x80 + c.toNat % 64)) = true by simp [isCont]; omega]
        simp only [if_true]
        rw [if_pos (by simp only [Bool.and_eq_true, decide_eq_true_eq]; omega)]
        rw [show (0xF0 + c.toNat / 262144 - 0xF0) * 262144 +
            (0x80 + c.toNat / 4096 % 64 - 0x80) * 4096 + (0x80 + c.toNat / 64 % 64 - 0x80) * 64 +
            (0x80 + c.toNat % 64 - 0x80) = c.toNat by omega]
        rw [Char.ofNat_toNat]

theorem utf8EncodeChar_ne_nil (c : Char) : utf8EncodeChar c ≠ [] := by
  unfold utf8EncodeChar
  split
  · simp
  · split
    · simp
    · split <;> simp

theorem utf8Decode_encode : ∀ (f : Nat) (cs : List Char),
    (utf8Encode cs).length ≤ f → utf8Decode f (utf8Encode cs) = some cs := by
  intro f cs
  induction cs generalizing f with
  | nil => intro _; simp [utf8Encode, utf8Decode]
  | cons c rest ih =>
      intro hf
      obtain ⟨b, bs, hbc⟩ := List.exists_cons_of_ne_nil (utf8EncodeChar_ne_nil c)
      have hsplit : utf8Encode (c :: rest) = b :: (bs ++ utf8Encode rest) := by
        show utf8EncodeChar c ++ utf8Encode rest = _
        rw [hbc]
        simp
      match f with
      | 0 =>
          exfalso
          rw [hsplit] at hf
          simp at hf
      | f + 1 =>
          rw [hsplit]
          show (match utf8DecodeOne (b :: (bs ++ utf8Encode rest)) with
            | some (c', r) => (utf8Decode f r).map (c' :: ·)
            | none => none) = _
          rw [show b :: (bs ++ utf8Encode rest) = utf8EncodeChar c ++ utf8Encode rest by
            rw [hbc]; simp]
          rw [utf8DecodeOne_encodeChar]
          have hlen : (utf8Encode rest).length ≤ f := by
            rw [hsplit] at hf
            simp at hf
            omega
          show (utf8Decode f (utf8Encode rest)).map (c :: ·) = _
          rw [ih f hlen]
          rfl

mutual

/-- Structural size of a JSON tree, used as a fuel bound for the parser. -/
def sizeJ : JSONValue → Nat
  | .null => 1
  | .bool _ => 1
  | .num _ => 1
  | .str _ => 1
  | .arr items => 1 + sizeItems items
  | .obj fields => 1 + sizeFields fields

/-- Size of an array item list. -/
def sizeItems : List JSONValue → Nat
  | [] => 1
  | v :: rest => 1 + sizeJ v + sizeItems rest

/-- Size of an object field list. -/
def sizeFields : List (String × JSONValue) → Nat
  | [] => 1
  | (_, v) :: rest => 1 + sizeJ v + sizeFields rest

end

theorem sizeJ_pos : ∀ v, 1 ≤ sizeJ v := by
  intro v; cases v <;> simp [sizeJ]

theorem sizeItems_pos : ∀ l, 1 ≤ sizeItems l := by
  intro l; cases l <;> simp [sizeItems] <;> omega

theorem sizeFields_pos : ∀ l, 1 ≤ sizeFields l := by
  intro l
  cases l with
  | nil => simp [sizeFields]
  | cons p rest => obtain ⟨k, v⟩ := p; simp [sizeFields]; omega

/-- Head of a list is not a decimal digit (or the list is empty). -/
def noDigitHead : List Char → Bool
  | [] => true
  | c :: _ => !isDigitCh c

theorem skipWs_cons {c : Char} {l : List Char} (h : isWs c = false) :
    skipWs (c :: l) = c :: l := by
  simp [skipWs, h]

theorem ne_of_toNat_ne {a b : Char} (h : a.toNat ≠ b.toNat) : a ≠ b :=
  fun he => h (by rw [he])

theorem digitChar_toNat {d : Nat} (h : d < 10) : (digitChar d).toNat = 48 + d := by
  interval_cases d <;> decide

theorem not_ws_of_toNat {c : Char} (h32 : c.toNat ≠ 32) (h9 : c.toNat ≠ 9)
    (h10 : c.toNat ≠ 10) (h13 : c.toNat ≠ 13) : isWs c = false := by
  simp only [isWs, Bool.or_eq_false_iff, decide_eq_false_iff_not]
  refine ⟨⟨⟨?_, ?_⟩, ?_⟩, ?_⟩ <;> intro he <;> subst he <;> simp_all

theorem natDigitsAux_spec : ∀ f n, n < f →
    (∀ c ∈ natDigitsAux f n, isDigitCh c = true) ∧ natDigitsAux f n ≠ [] ∧
    ∀ acc, (natDigitsAux f n).foldl (fun a c => a * 10 + (c.toNat - 48)) acc =
      acc * 10 ^ (natDigitsAux f n).length + n := by
  intro f
  induction f with
  | zero => intro n h; omega
  | succ f ih =>
      intro n hn
      by_cases h10 : n < 10
      · refine ⟨?_, ?_, ?_⟩
        · intro c hc
          simp only [natDigitsAux, if_pos h10, List.mem_singleton] at hc
          subst hc
          simp [isDigitCh, digitChar_toNat h10]
          omega
        · simp [natDigitsAux, if_pos h10]
        · intro acc
          simp only [natDigitsAux, if_pos h10, List.foldl_cons, List.foldl_nil,
            List.length_singleton, pow_one, digitChar_toNat h10]
          omega
      · have hdiv : n / 10 < f := by
          have h1 : n / 10 < n := Nat.div_lt_self (by omega) (by norm_num)
          omega
        obtain ⟨ihd, ihne, ihfold⟩ := ih (n / 10) hdiv
        refine ⟨?_, ?_, ?_⟩
        · intro c hc
          simp only [natDigitsAux, if_neg h10, List.mem_append, List.mem_singleton] at hc
          rcases hc with hc | hc
          · exact ihd c hc
          · subst hc
            have : n % 10 < 10 := Nat.mod_lt _ (by norm_num)
            simp [isDigitCh, digitChar_toNat this]
            omega
        · simp [natDigitsAux, if_neg h10]
        · intro acc
          simp only [natDigitsAux, if_neg h10, List.foldl_append, List.foldl_cons,
            List.foldl_nil, List.length_append, List.length_singleton]
          rw [ihfold acc]
          have hm : n % 10 < 10 := Nat.mod_lt _ (by norm_num)
          rw [digitChar_toNat hm]
          have hdm := Nat.div_add_mod n 10
          rw [pow_succ]
          have : acc * 10 ^ (natDigitsAux f (n / 10)).length + n / 10 ≥ 0 := by omega
          calc (acc * 10 ^ (natDigitsAux f (n / 10)).length + n / 10) * 10 + (48 + n % 10 - 48)
              = acc * (10 ^ (natDigitsAux f (n / 10)).length * 10) +
                (10 * (n / 10) + n % 10) := by ring_nf; omega
            _ = acc * (10 ^ (natDigitsAux f (n / 10)).length * 10) + n := by rw [hdm]

theorem natDigits_spec (n : Nat) :
    (∀ c ∈ natDigits n, isDigitCh c = true) ∧ natDigits n ≠ [] ∧
    (natDigits n).foldl (fun a c => a * 10 + (c.toNat - 48)) 0 = n := by
  obtain ⟨h1, h2, h3⟩ := natDigitsAux_spec (n + 1) n (by omega)
  refine ⟨h1, h2, ?_⟩
  show (natDigitsAux (n + 1) n).foldl (fun a c => a * 10 + (c.toNat - 48)) 0 = n
  rw [h3 0]
  simp

theorem parseDigits_spec : ∀ (ds : List Char) (acc : Nat) (rest : List Char),
    (∀ c ∈ ds, isDigitCh c = true) → noDigitHead rest = true →
    parseDigits acc (ds ++ rest) =
      (ds.foldl (fun a c => a * 10 + (c.toNat - 48)) acc, rest) := by
  intro ds
  induction ds with
  | nil =>
      intro acc rest _ hr
      cases rest with
      | nil => simp [parseDigits]
      | cons c r =>
          simp only [noDigitHead, Bool.not_eq_true'] at hr
          simp [parseDigits, hr]
  | cons d ds ih =>
      intro acc rest hd hr
      have hdd : isDigitCh d = true := hd d (by simp)
      show parseDigits acc (d :: (ds ++ rest)) = _
      simp only [parseDigits, hdd, if_true, List.foldl_cons]
      exact ih _ rest (fun c hc => hd c (by simp [hc])) hr

theorem parseNumber_natDigits (m : Nat) (rest : List Char) (h : noDigitHead rest = true) :
    parseNumber (natDigits m ++ rest) = some (.num (m : Int), rest) := by
  obtain ⟨hd, hne, hfold⟩ := natDigits_spec m
  obtain ⟨c, cs, hc⟩ := List.exists_cons_of_ne_nil hne
  have hcd : isDigitCh c = true := hd c (by rw [hc]; simp)
  have hcne : c ≠ '-' := by
    refine ne_of_toNat_ne ?_
    simp only [isDigitCh, Bool.and_eq_true, decide_eq_true_eq] at hcd
    show c.toNat ≠ 45
    omega
  rw [hc]
  show parseNumber (c :: (cs ++ rest)) = _
  simp only [parseNumber, if_neg hcne, hcd, if_true]
  rw [parseDigits_spec cs (c.toNat - 48) rest (fun x hx => hd x (by rw [hc]; simp [hx])) h]
  have : cs.foldl (fun a c => a * 10 + (c.toNat - 48)) (c.toNat - 48) = m := by
    have h0 : (c :: cs).foldl (fun a c => a * 10 + (c.toNat - 48)) 0 = m := by
      rw [← hc]; exact hfold
    simpa using h0
  rw [this]

theorem parseNumber_intChars (n : Int) (rest : List Char) (h : noDigitHead rest = true) :
    parseNumber (intChars n ++ rest) = some (.num n, rest) := by
  unfold intChars
  by_cases hn : n < 0
  · rw [if_pos hn]
    obtain ⟨hd, hne, hfold⟩ := natDigits_spec n.natAbs
    obtain ⟨c, cs, hc⟩ := List.exists_cons_of_ne_nil hne
    show parseNumber ('-' :: (natDigits n.natAbs ++ rest)) = _
    rw [hc]
    show parseNumber ('-' :: c :: (cs ++ rest)) = _
    have hcd : isDigitCh c = true := hd c (by rw [hc]; simp)
    simp only [parseNumber, if_pos rfl, hcd, if_true]
    rw [parseDigits_spec cs (c.toNat - 48) rest (fun x hx => hd x (by rw [hc]; simp [hx])) h]
    have : cs.foldl (fun a c => a * 10 + (c.toNat - 48)) (c.toNat - 48) = n.natAbs := by
      have h0 : (c :: cs).foldl (fun a c => a * 10 + (c.toNat - 48)) 0 = n.natAbs := by
        rw [← hc]; exact hfold
      simpa using h0
    rw [this]
    have : -(n.natAbs : Int) = n := by omega
    rw [this]
  · rw [if_neg hn]
    rw [parseNumber_natDigits n.natAbs rest h]
    have : (n.natAbs : Int) = n := by omega
    rw [this]

theorem parseStringBody_escape : ∀ (cs rest : List Char),
    parseStringBody (escapeChars cs ++ '"' :: rest) = some (cs, rest) := by
  intro cs
  induction cs with
  | nil =>
      intro rest
      show parseStringBody ('"' :: rest) = _
      unfold parseStringBody
      rw [if_pos rfl]
  | cons c cs ih =>
      intro rest
      show parseStringBody (escapeChar c ++ escapeChars cs ++ '"' :: rest) = _
      by_cases h1 : c = '"'
      · subst h1
        show parseStringBody ('\\' :: '"' :: (escapeChars cs ++ '"' :: rest)) = _
        simp only [parseStringBody, if_neg (by decide : ¬('\\' = '"')), if_pos rfl]
        rw [show unescapeChar '"' = some '"' from rfl]
        rw [ih rest]
        rfl
      · by_cases h2 : c = '\\'
        · subst h2
          show parseStringBody ('\\' :: '\\' :: (escapeChars cs ++ '"' :: rest)) = _
          simp only [parseStringBody, if_neg (by decide : ¬('\\' = '"')), if_pos rfl]
          rw [show unescapeChar '\\' = some '\\' from rfl]
          rw [ih rest]
          rfl
        · rw [show escapeChar c = [c] by simp [escapeChar, h1, h2]]
          show parseStringBody (c :: (escapeChars cs ++ '"' :: rest)) = _
          unfold parseStringBody
          rw [if_neg h1, if_neg h2, ih rest]
          rfl

theorem renderList_eq (v0 : JSONValue) (vs : List JSONValue) :
    renderList (v0 :: vs) =
      renderChars v0 ++ (if vs.isEmpty then [] else ',' :: renderList vs) := by
  cases vs <;> simp [renderList]

theorem renderFields_eq (k : String) (v0 : JSONValue) (gs : List (String × JSONValue)) :
    renderFields ((k, v0) :: gs) =
      strChars k ++ ':' :: renderChars v0 ++
        (if gs.isEmpty then [] else ',' :: renderFields gs) := by
  cases gs <;> simp [renderFields]

theorem renderChars_head : ∀ v : JSONValue, ∃ c cs', renderChars v = c :: cs' ∧
    isWs c = false ∧ c ≠ ']' ∧ c ≠ '}' := by
  intro v
  cases v with
  | null => exact ⟨'n', _, rfl, by decide, by decide, by decide⟩
  | bool b =>
      cases b
      · exact ⟨'f', _, rfl, by decide, by decide, by decide⟩
      · exact ⟨'t', _, rfl, by decide, by decide, by decide⟩
  | num n =>
      unfold renderChars intChars
      by_cases hn : n < 0
      · rw [if_pos hn]
        exact ⟨'-', _, rfl, by decide, by decide, by decide⟩
      · rw [if_neg hn]
        obtain ⟨hd, hne, _⟩ := natDigits_spec n.natAbs
        obtain ⟨c, cs, hc⟩ := List.exists_cons_of_ne_nil hne
        have hcd : isDigitCh c = true := hd c (by rw [hc]; simp)
        simp only [isDigitCh, Bool.and_eq_true, decide_eq_true_eq] at hcd
        refine ⟨c, cs, hc, not_ws_of_toNat (by omega) (by omega) (by omega) (by omega),
          ne_of_toNat_ne ?_, ne_of_toNat_ne ?_⟩
        · show c.toNat ≠ 93; omega
        · show c.toNat ≠ 125; omega
  | str t => exact ⟨'"', _, rfl, by decide, by decide, by decide⟩
  | arr items => exact ⟨'[', _, rfl, by decide, by decide, by decide⟩
  | obj fields => exact ⟨'{', _, rfl, by decide, by decide, by decide⟩

theorem noDigitHead_cons (c : Char) (l : List Char) :
    noDigitHead (c :: l) = !isDigitCh c := rfl

theorem parse_render_roundtrip : ∀ f : Nat,
    (∀ v rest, sizeJ v ≤ f → noDigitHead rest = true →
      parseValue f (renderChars v ++ rest) = some (v, rest)) ∧
    (∀ items rest, items ≠ [] → sizeItems items ≤ f →
      parseItems f (renderList items ++ ']' :: rest) = some (items, rest)) ∧
    (∀ fields rest, fields ≠ [] → sizeFields fields ≤ f →
      parseMembers f (renderFields fields ++ '}' :: rest) = some (fields, rest)) := by
  intro f
  induction f with
  | zero =>
      refine ⟨?_, ?_, ?_⟩
      · intro v rest hs _; have := sizeJ_pos v; omega
      · intro items rest _ hs; have := sizeItems_pos items; omega
      · intro fields rest _ hs; have := sizeFields_pos fields; omega
  | succ f ih =>
      obtain ⟨ihV, ihI, ihM⟩ := ih
      refine ⟨?_, ?_, ?_⟩
      · intro v rest hs hr
        cases v with
        | null =>
            show parseValue (f + 1) ('n' :: 'u' :: 'l' :: 'l' :: rest) = _
            simp only [parseValue]
            rw [skipWs_cons (by decide)]
            rfl
        | bool b =>
            cases b
            · show parseValue (f + 1) ('f' :: 'a' :: 'l' :: 's' :: 'e' :: rest) = _
              simp only [parseValue]
              rw [skipWs_cons (by decide)]
              rfl
            · show parseValue (f + 1) ('t' :: 'r' :: 'u' :: 'e' :: rest) = _
              simp only [parseValue]
              rw [skipWs_cons (by decide)]
              rfl
        | num n =>
            obtain ⟨c, cs, hc, hws, _, _⟩ := renderChars_head (.num n)
            rw [show renderChars (.num n) = intChars n from rfl] at hc
            show parseValue (f + 1) (intChars n ++ rest) = _
            rw [show intChars n ++ rest = c :: (cs ++ rest) by rw [hc]; simp]
            simp only [parseValue]
            rw [skipWs_cons hws]
            have hpn : parseNumber (c :: (cs ++ rest)) = some (.num n, rest) := by
              rw [show c :: (cs ++ rest) = intChars n ++ rest by rw [hc]; simp]
              exact parseNumber_intChars n rest hr
            have hdig : c.toNat = 45 ∨ (48 ≤ c.toNat ∧ c.toNat ≤ 57) := by
              unfold intChars at hc
              by_cases hn : n < 0
              · rw [if_pos hn] at hc
                left
                have hcm : c = '-' := by
                  have h2 := congrArg (fun l => l.head?) hc
                  simpa using h2.symm
                rw [hcm]
                rfl
              · rw [if_neg hn] at hc
                obtain ⟨hd, hne, _⟩ := natDigits_spec n.natAbs
                have hdc : isDigitCh c = true := hd c (by rw [hc]; simp)
                simp only [isDigitCh, Bool.and_eq_true, decide_eq_true_eq] at hdc
                right; exact hdc
            dsimp only
            rw [if_neg (show c ≠ 'n' from ne_of_toNat_ne (by show c.toNat ≠ 110; omega)),
              if_neg (show c ≠ 't' from ne_of_toNat_ne (by show c.toNat ≠ 116; omega)),
              if_neg (show c ≠ 'f' from ne_of_toNat_ne (by show c.toNat ≠ 102; omega)),
              if_neg (show c ≠ '"' from ne_of_toNat_ne (by show c.toNat ≠ 34; omega)),
              if_neg (show c ≠ '[' from ne_of_toNat_ne (by show c.toNat ≠ 91; omega)),
              if_neg (show c ≠ '{' from ne_of_toNat_ne (by show c.toNat ≠ 123; omega))]
            exact hpn
        | str t =>
            rw [show renderChars (.str t) ++ rest = '"' :: (escapeChars t.data ++ '"' :: rest) by
              show ('"' :: escapeChars t.data ++ ['"']) ++ rest = _
              simp]
            simp only [parseValue]
            rw [skipWs_cons (by decide)]
            dsimp only
            rw [if_neg (by decide), if_neg (by decide), if_neg (by decide), if_pos rfl,
              parseStringBody_escape]
            rfl
        | arr items =>
            rw [show renderChars (.arr items) ++ rest =
                '[' :: (renderList items ++ ']' :: rest) by
              show ('[' :: renderList items ++ [']']) ++ rest = _
              simp]
            simp only [parseValue]
            rw [skipWs_cons (by decide)]
            dsimp only
            rw [if_neg (by decide), if_neg (by decide), if_neg (by decide), if_neg (by decide),
              if_pos rfl]
            cases items with
            | nil =>
                rw [show renderList ([] : List JSONValue) ++ ']' :: rest = ']' :: rest by
                  simp [renderList]]
                rw [skipWs_cons (by decide)]
                dsimp only
                rw [if_pos rfl]
            | cons v0 vs =>
                obtain ⟨c0, cs0, hc0, hws0, hne0, _⟩ := renderChars_head v0
                have htail : renderList (v0 :: vs) ++ ']' :: rest =
                    c0 :: (cs0 ++ ((if vs.isEmpty then [] else ',' :: renderList vs) ++
                      ']' :: rest)) := by
                  rw [renderList_eq, hc0]; simp
                rw [htail, skipWs_cons hws0]
                dsimp only
                rw [if_neg hne0, ← htail]
                rw [ihI (v0 :: vs) rest (by simp) (by simp only [sizeJ] at hs; omega)]
                rfl
        | obj fields =>
            rw [show renderChars (.obj fields) ++ rest =
                '{' :: (renderFields fields ++ '}' :: rest) by
              show ('{' :: renderFields fields ++ ['}']) ++ rest = _
              simp]
            simp only [parseValue]
            rw [skipWs_cons (by decide)]
            dsimp only
            rw [if_neg (by decide), if_neg (by decide), if_neg (by decide), if_neg (by decide),
              if_neg (by decide), if_pos rfl]
            cases fields with
            | nil =>
                rw [show renderFields ([] : List (String × JSONValue)) ++ '}' :: rest =
                    '}' :: rest by simp [renderFields]]
                rw [skipWs_cons (by decide)]
                dsimp only
                rw [if_pos rfl]
            | cons kv gs =>
                obtain ⟨k, v0⟩ := kv
                have htail : renderFields ((k, v0) :: gs) ++ '}' :: rest =
                    '"' :: (escapeChars k.data ++ '"' :: (':' :: (renderChars v0 ++
                      ((if gs.isEmpty then [] else ',' :: renderFields gs) ++
                        '}' :: rest)))) := by
                  rw [renderFields_eq]
                  simp [strChars]
                rw [htail, skipWs_cons (by decide)]
                dsimp only
                rw [if_neg (by decide), ← htail]
                rw [ihM ((k, v0) :: gs) rest (by simp) (by simp only [sizeJ] at hs; omega)]
                rfl
      · intro items rest hne hs
        cases items with
        | nil => exact absurd rfl hne
        | cons v0 vs =>
            simp only [parseItems]
            cases vs with
            | nil =>
                rw [show renderList [v0] ++ ']' :: rest = renderChars v0 ++ (']' :: rest) by
                  simp [renderList]]
                have hs0 : sizeJ v0 ≤ f := by
                  simp only [sizeItems] at hs; omega
                rw [ihV v0 (']' :: rest) hs0 (by rw [noDigitHead_cons]; decide)]
                dsimp only
                rw [skipWs_cons (by decide)]
                dsimp only
                rw [if_neg (by decide), if_pos rfl]
            | cons v1 vs' =>
                rw [show renderList (v0 :: v1 :: vs') ++ ']' :: rest =
                    renderChars v0 ++ (',' :: (renderList (v1 :: vs') ++ ']' :: rest)) by
                  simp [renderList]]
                have hp1 := sizeJ_pos v1
                have hp2 := sizeItems_pos vs'
                have hs0 : sizeJ v0 ≤ f := by
                  simp only [sizeItems] at hs; omega
                have hs1 : sizeItems (v1 :: vs') ≤ f := by
                  simp only [sizeItems] at hs ⊢
                  have := sizeJ_pos v0
                  omega
                rw [ihV v0 _ hs0 (by rw [noDigitHead_cons]; decide)]
                dsimp only
                rw [skipWs_cons (by decide)]
                dsimp only
                rw [if_pos rfl]
                rw [ihI (v1 :: vs') rest (by simp) hs1]
                rfl
      · intro fields rest hne hs
        cases fields with
        | nil => exact absurd rfl hne
        | cons kv gs =>
            obtain ⟨k, v0⟩ := kv
            simp only [parseMembers]
            have htail : renderFields ((k, v0) :: gs) ++ '}' :: rest =
                '"' :: (escapeChars k.data ++ '"' :: (':' :: (renderChars v0 ++
                  ((if gs.isEmpty then [] else ',' :: renderFields gs) ++ '}' :: rest)))) := by
              rw [renderFields_eq]
              simp [strChars]
            rw [htail, skipWs_cons (by decide)]
            dsimp only
            rw [if_pos rfl, parseStringBody_escape]
            dsimp only
            rw [skipWs_cons (by decide)]
            dsimp only
            rw [if_pos rfl]
            cases gs with
            | nil =>
                rw [show ((if ([] : List (String × JSONValue)).isEmpty then []
                    else ',' :: renderFields []) ++ '}' :: rest) = '}' :: rest by simp]
                have hs0 : sizeJ v0 ≤ f := by
                  simp only [sizeFields] at hs; omega
                rw [ihV v0 ('}' :: rest) hs0 (by rw [noDigitHead_cons]; decide)]
                dsimp only
                rw [skipWs_cons (by decide)]
                dsimp only
                rw [if_neg (by decide), if_pos rfl]
            | cons g gs' =>
                rw [show ((if (g :: gs').isEmpty then [] else ',' :: renderFields (g :: gs')) ++
                    '}' :: rest) = ',' :: (renderFields (g :: gs') ++ '}' :: rest) by simp]
                have hpg := sizeFields_pos (g :: gs')
                have hs0 : sizeJ v0 ≤ f := by
                  simp only [sizeFields] at hs; omega
                have hs1 : sizeFields (g :: gs') ≤ f := by
                  have := sizeJ_pos v0
                  simp only [sizeFields] at hs ⊢
                  omega
                rw [ihV v0 _ hs0 (by rw [noDigitHead_cons]; decide)]
                dsimp only
                rw [skipWs_cons (by decide)]
                dsimp only
                rw [if_pos rfl]
                rw [ihM (g :: gs') rest (by simp) hs1]
                rfl

mutual

theorem sizeJ_le_render : ∀ v, sizeJ v ≤ 2 * (renderChars v).length
  | .null => by simp [sizeJ, renderChars]
  | .bool b => by cases b <;> simp [sizeJ, renderChars]
  | .num n => by
      simp only [sizeJ, renderChars]
      have h1 : intChars n ≠ [] := by
        unfold intChars
        obtain ⟨_, hne, _⟩ := natDigits_spec n.natAbs
        split <;> simp [hne]
      have := List.length_pos.mpr h1
      omega
  | .str t => by
      show 1 ≤ 2 * ('"' :: (escapeChars t.data ++ ['"'])).length
      simp only [List.length_cons]
      omega
  | .arr items => by
      have h := sizeItems_le_render items
      simp only [sizeJ, renderChars, List.length_cons, List.length_append,
        List.length_singleton]
      omega
  | .obj fields => by
      have h := sizeFields_le_render fields
      simp only [sizeJ, renderChars, List.length_cons, List.length_append,
        List.length_singleton]
      omega

theorem sizeItems_le_render : ∀ l, sizeItems l ≤ 2 * (renderList l).length + 3
  | [] => by simp [sizeItems, renderList]
  | [v] => by
      have := sizeJ_le_render v
      simp only [sizeItems, renderList]
      omega
  | v0 :: v1 :: vs => by
      have h0 := sizeJ_le_render v0
      have h1 := sizeItems_le_render (v1 :: vs)
      simp only [sizeItems] at h1 ⊢
      simp only [renderList, List.length_append, List.length_cons]
      omega

theorem sizeFields_le_render : ∀ l, sizeFields l ≤ 2 * (renderFields l).length + 3
  | [] => by simp [sizeFields, renderFields]
  | [(k, v)] => by
      have := sizeJ_le_render v
      simp only [sizeFields, renderFields, List.length_append, List.length_cons]
      omega
  | (k0, v0) :: (k1, v1) :: gs => by
      have h0 := sizeJ_le_render v0
      have h1 := sizeFields_le_render ((k1, v1) :: gs)
      simp only [sizeFields] at h1 ⊢
      simp only [renderFields, List.length_append, List.length_cons]
      omega

end

theorem parseChars_render (v : JSONValue) : parseChars (renderChars v) = .ok v := by
  unfold parseChars
  have h := (parse_render_roundtrip (2 * (renderChars v).length + 2)).1 v []
    (by have := sizeJ_le_render v; omega) rfl
  rw [List.append_nil] at h
  rw [h]
  rfl

/-- End-to-end round trip: rendering any parsed tree to canonical text,
encoding it as UTF-8 bytes and feeding it to the payload parser yields the
same tree back. -/
theorem parsePayload_render (v : JSONValue) : parsePayload (strBytes (renderJ v)) = .ok v := by
  unfold parsePayload strBytes
  rw [show (renderJ v).data = renderChars v from rfl]
  rw [utf8Decode_encode _ _ (le_refl _)]
  exact parseChars_render v

mutual

/-- Structural size of an expectation tree (induction measure). -/
def sizeE : ExpectedNode → Nat
  | .null => 1
  | .bool _ => 1
  | .int _ => 1
  | .str _ => 1
  | .array xs => 1 + sizeEList xs
  | .object fs => 1 + sizeEFields fs
  | .capture _ _ => 1
  | .hostStruct fs => 1 + sizeEFields fs
  | .hostMap fs => 1 + sizeEFields fs
  | .hostSlice xs => 1 + sizeEList xs
  | .failing _ _ => 1

/-- Size of a list of expectation trees. -/
def sizeEList : List ExpectedNode → Nat
  | [] => 1
  | e :: rest => 1 + sizeE e + sizeEList rest

/-- Size of an expectation field list. -/
def sizeEFields : List (String × ExpectedNode) → Nat
  | [] => 1
  | (_, e) :: rest => 1 + sizeE e + sizeEFields rest

end

theorem sizeE_pos : ∀ e, 1 ≤ sizeE e := by
  intro e; cases e <;> simp [sizeE]

theorem sizeE_lt_of_mem : ∀ (xs : List ExpectedNode) (e : ExpectedNode), e ∈ xs →
    sizeE e < sizeEList xs := by
  intro xs
  induction xs with
  | nil => intro e h; simp at h
  | cons x rest ih =>
      intro e h
      rcases List.mem_cons.mp h with h | h
      · subst h
        simp only [sizeEList]
        omega
      · have := ih e h
        have := sizeE_pos x
        simp only [sizeEList]
        omega

theorem sizeE_lt_of_mem_fields : ∀ (fs : List (String × ExpectedNode)) (k : String)
    (e : ExpectedNode), (k, e) ∈ fs → sizeE e < sizeEFields fs := by
  intro fs
  induction fs with
  | nil => intro k e h; simp at h
  | cons p rest ih =>
      intro k e h
      obtain ⟨k0, e0⟩ := p
      rcases List.mem_cons.mp h with h | h
      · have he : e = e0 := (Prod.ext_iff.mp h).2
        subst he
        simp only [sizeEFields]
        omega
      · have := ih k e h
        have := sizeE_pos e0
        simp only [sizeEFields]
        omega

theorem lookup_cons_self {β : Type} (k : String) (v : β) (l : List (String × β)) :
    ((k, v) :: l).lookup k = some v := by
  simp [List.lookup]

theorem lookup_cons_ne {β : Type} {k k0 : String} (hk : k ≠ k0) (v0 : β)
    (l : List (String × β)) : ((k0, v0) :: l).lookup k = l.lookup k := by
  simp only [List.lookup]
  rw [show (k == k0) = false by simp [hk]]

theorem lookup_isSome_iff {β : Type} (l : List (String × β)) (k : String) :
    (l.lookup k).isSome = true ↔ k ∈ l.map Prod.fst := by
  induction l with
  | nil => simp [List.lookup]
  | cons p rest ih =>
      obtain ⟨k0, v0⟩ := p
      by_cases h : k = k0
      · subst h; simp [lookup_cons_self]
      · rw [lookup_cons_ne h]
        simp [ih, h]

theorem lookup_mem {β : Type} : ∀ {l : List (String × β)} {k : String} {v : β},
    l.lookup k = some v → (k, v) ∈ l := by
  intro l
  induction l with
  | nil => intro k v h; simp [List.lookup] at h
  | cons p rest ih =>
      intro k v h
      obtain ⟨k0, v0⟩ := p
      by_cases hk : k = k0
      · subst hk
        rw [lookup_cons_self] at h
        simp only [Option.some.injEq] at h
        subst h
        simp
      · rw [lookup_cons_ne hk] at h
        exact List.mem_cons_of_mem _ (ih h)

theorem mem_lookup {β : Type} : ∀ {l : List (String × β)} {k : String} {v : β},
    (l.map Prod.fst).Nodup → (k, v) ∈ l → l.lookup k = some v := by
  intro l
  induction l with
  | nil => intro k v _ h; simp at h
  | cons p rest ih =>
      intro k v hnd hmem
      obtain ⟨k0, v0⟩ := p
      simp only [List.map_cons, List.nodup_cons] at hnd
      rcases List.mem_cons.mp hmem with hmem | hmem
      · obtain ⟨h1, h2⟩ := Prod.ext_iff.mp hmem
        subst h1; subst h2
        exact lookup_cons_self k v rest
      · have hk : k ≠ k0 := fun he =>
          hnd.1 (he ▸ List.mem_map.mpr ⟨(k, v), hmem, rfl⟩)
        rw [lookup_cons_ne hk]
        exact ih hnd.2 hmem

theorem lookup_eq_none_iff {β : Type} (l : List (String × β)) (k : String) :
    l.lookup k = none ↔ k ∉ l.map Prod.fst := by
  rw [← lookup_isSome_iff]
  cases l.lookup k <;> simp

theorem lookup_append_right {β : Type} : ∀ {s1 : List (String × β)} {k : String},
    k ∉ s1.map Prod.fst → ∀ s2, (s1 ++ s2).lookup k = s2.lookup k := by
  intro s1
  induction s1 with
  | nil => intro k _ s2; rfl
  | cons q s1' ih =>
      intro k hk s2
      obtain ⟨kq, vq⟩ := q
      simp only [List.map_cons, List.mem_cons, not_or] at hk
      rw [List.cons_append, lookup_cons_ne hk.1, ih hk.2]

theorem lookup_middle_ne {β : Type} {k k0 : String} (hk : k ≠ k0) (v0 : β) :
    ∀ (s1 s2 : List (String × β)), (s1 ++ (k0, v0) :: s2).lookup k = (s1 ++ s2).lookup k := by
  intro s1
  induction s1 with
  | nil =>
      intro s2
      simp only [List.nil_append]
      exact lookup_cons_ne hk v0 s2
  | cons q s1' ih =>
      intro s2
      obtain ⟨kq, vq⟩ := q
      by_cases hq : k = kq
      · subst hq
        simp only [List.cons_append, lookup_cons_self]
      · simp only [List.cons_append]
        rw [lookup_cons_ne hq, lookup_cons_ne hq]
        exact ih s2

/-- Two association lists with no duplicate keys, permuted key lists and
identical lookups are permutations of each other. -/
theorem perm_of_lookup_eq {β : Type} : ∀ (l1 l2 : List (String × β)),
    (l1.map Prod.fst).Nodup → (l1.map Prod.fst).Perm (l2.map Prod.fst) →
    (∀ k, l1.lookup k = l2.lookup k) → l1.Perm l2 := by
  intro l1
  induction l1 with
  | nil =>
      intro l2 _ hp _
      have h2 : l2.map Prod.fst = [] := (List.Perm.nil_eq hp).symm
      cases l2 with
      | nil => exact List.Perm.refl _
      | cons q r => simp at h2
  | cons p rest ih =>
      intro l2 hnd hp hl
      obtain ⟨k0, v0⟩ := p
      have h1 : l2.lookup k0 = some v0 := by
        rw [← hl k0, lookup_cons_self]
      obtain ⟨s1, s2, hsplit⟩ := List.append_of_mem (lookup_mem h1)
      subst hsplit
      have hkeysmid : ((s1 ++ (k0, v0) :: s2).map Prod.fst).Perm
          (k0 :: (s1 ++ s2).map Prod.fst) := by
        simp only [List.map_append, List.map_cons]
        exact List.perm_middle
      have hndcons : ((k0, v0) :: rest).map Prod.fst = k0 :: rest.map Prod.fst := by simp
      rw [hndcons] at hp
      simp only [List.map_cons, List.nodup_cons] at hnd
      have hktail : (rest.map Prod.fst).Perm ((s1 ++ s2).map Prod.fst) := by
        have hx := hp.trans hkeysmid
        exact (List.perm_cons k0).mp hx
      refine List.Perm.trans (List.Perm.cons _ ?_) List.perm_middle.symm
      apply ih (s1 ++ s2) hnd.2 hktail
      intro k
      by_cases hk : k = k0
      · subst hk
        have hn1 : rest.lookup k = none := (lookup_eq_none_iff rest k).mpr hnd.1
        have hn2 : (s1 ++ s2).lookup k = none := by
          rw [lookup_eq_none_iff]
          intro hin
          have : k ∈ rest.map Prod.fst := hktail.symm.subset hin
          exact hnd.1 this
        rw [hn1, hn2]
      · have hthis := hl k
        rw [lookup_cons_ne hk] at hthis
        rw [hthis]
        exact lookup_middle_ne hk v0 s1 s2

theorem sortByKey_perm {β : Type} (l : List (String × β)) : (sortByKey l).Perm l :=
  List.perm_insertionSort _ l

theorem sortByKey_sorted {β : Type} (l : List (String × β)) :
    List.Sorted keyLE (sortByKey l) :=
  List.sorted_insertionSort _ l

theorem string_le_antisymm {a b : String} (h1 : strLE a b = true) (h2 : strLE b a = true) :
    a = b := by
  have h := charListLE_antisymm a.data b.data h1 h2
  cases a; cases b
  exact congrArg String.mk h

theorem sorted_perm_nodupkeys_eq {β : Type} : ∀ (l1 l2 : List (String × β)),
    List.Sorted keyLE l1 → List.Sorted keyLE l2 → l1.Perm l2 →
    (l1.map Prod.fst).Nodup → l1 = l2 := by
  intro l1
  induction l1 with
  | nil =>
      intro l2 _ _ hp _
      exact (List.Perm.nil_eq hp).symm ▸ rfl
  | cons p t1 ih =>
      intro l2 hs1 hs2 hp hnd
      cases l2 with
      | nil => exact absurd hp.symm (by simp)
      | cons q t2 =>
          have hpq : p = q := by
            have hpin : p ∈ q :: t2 := hp.subset (by simp)
            have hqin : q ∈ p :: t1 := hp.symm.subset (by simp)
            rcases List.mem_cons.mp hqin with h | h
            · exact h.symm
            · exfalso
              have hle1 : keyLE q p := by
                rcases List.mem_cons.mp hpin with h2 | h2
                · rw [h2]
                  show strLE q.1 q.1 = true
                  have := charListLE_total q.1.data q.1.data
                  tauto
                · exact (List.sorted_cons.mp hs2).1 p h2
              have hle2 : keyLE p q := (List.sorted_cons.mp hs1).1 q h
              have hkey : p.1 = q.1 := string_le_antisymm hle2 hle1
              simp only [List.map_cons, List.nodup_cons] at hnd
              exact hnd.1 (hkey ▸ List.mem_map.mpr ⟨q, h, rfl⟩)
          subst hpq
          have htp : t1.Perm t2 := hp.cons_inv
          simp only [List.map_cons, List.nodup_cons] at hnd
          rw [ih t2 (List.sorted_cons.mp hs1).2 (List.sorted_cons.mp hs2).2 htp hnd.2]

theorem sortByKey_keys_nodup {β : Type} {l : List (String × β)}
    (hnd : (l.map Prod.fst).Nodup) : ((sortByKey l).map Prod.fst).Nodup :=
  ((sortByKey_perm l).map Prod.fst).symm.nodup hnd

theorem sortByKey_eq_of_perm {β : Type} (l1 l2 : List (String × β)) (hp : l1.Perm l2)
    (hnd : (l1.map Prod.fst).Nodup) : sortByKey l1 = sortByKey l2 :=
  sorted_perm_nodupkeys_eq _ _ (sortByKey_sorted l1) (sortByKey_sorted l2)
    ((sortByKey_perm l1).trans (hp.trans (sortByKey_perm l2).symm))
    (sortByKey_keys_nodup hnd)

theorem sortByKey_idem {β : Type} (l : List (String × β))
    (hnd : (l.map Prod.fst).Nodup) : sortByKey (sortByKey l) = sortByKey l :=
  sortByKey_eq_of_perm _ _ (sortByKey_perm l) (sortByKey_keys_nodup hnd)

theorem orderedInsert_keymap {β γ : Type} (g : String × β → String × γ)
    (hg : ∀ p, (g p).1 = p.1) (p : String × β) :
    ∀ l, (List.orderedInsert keyLE p l).map g = List.orderedInsert keyLE (g p) (l.map g) := by
  intro l
  induction l with
  | nil => rfl
  | cons q rest ih =>
      simp only [List.map_cons]
      show (if keyLE p q then p :: q :: rest else q :: List.orderedInsert keyLE p rest).map g =
        List.orderedInsert keyLE (g p) (g q :: rest.map g)
      by_cases h : keyLE p q
      · have hg2 : keyLE (g p) (g q) := by
          show strLE (g p).1 (g q).1 = true
          rw [hg p, hg q]
          exact h
        rw [if_pos h]
        show g p :: g q :: rest.map g = _
        rw [show List.orderedInsert keyLE (g p) (g q :: rest.map g) =
          if keyLE (g p) (g q) then g p :: g q :: rest.map g
          else g q :: List.orderedInsert keyLE (g p) (rest.map g) from rfl, if_pos hg2]
      · have hg2 : ¬keyLE (g p) (g q) := by
          show ¬strLE (g p).1 (g q).1 = true
          rw [hg p, hg q]
          exact h
        rw [if_neg h]
        show g q :: (List.orderedInsert keyLE p rest).map g = _
        rw [show List.orderedInsert keyLE (g p) (g q :: rest.map g) =
          if keyLE (g p) (g q) then g p :: g q :: rest.map g
          else g q :: List.orderedInsert keyLE (g p) (rest.map g) from rfl, if_neg hg2, ih]

theorem sortByKey_keymap {β γ : Type} (g : String × β → String × γ)
    (hg : ∀ p, (g p).1 = p.1) : ∀ l, (sortByKey l).map g = sortByKey (l.map g) := by
  intro l
  induction l with
  | nil => rfl
  | cons p rest ih =>
      simp only [List.map_cons]
      show (List.orderedInsert keyLE p (sortByKey rest)).map g =
        List.orderedInsert keyLE (g p) (sortByKey (rest.map g))
      rw [orderedInsert_keymap g hg, ih]

theorem sortKeysFields_eq_map : ∀ l, sortKeysFields l = l.map fun p => (p.1, sortKeysRec p.2) := by
  intro l
  induction l with
  | nil => rfl
  | cons p rest ih =>
      obtain ⟨k, v⟩ := p
      simp only [sortKeysFields, ih, List.map_cons]

theorem sortKeysList_eq_map : ∀ l, sortKeysList l = l.map sortKeysRec := by
  intro l
  induction l with
  | nil => rfl
  | cons v rest ih => simp only [sortKeysList, ih, List.map_cons]

theorem lookup_map_value {β γ : Type} (f : β → γ) :
    ∀ (l : List (String × β)) (k : String),
      (l.map fun p => (p.1, f p.2)).lookup k = (l.lookup k).map f := by
  intro l
  induction l with
  | nil => intro k; rfl
  | cons p rest ih =>
      intro k
      obtain ⟨k0, v0⟩ := p
      by_cases hk : k = k0
      · subst hk
        simp only [List.map_cons, lookup_cons_self]
        rfl
      · simp only [List.map_cons]
        rw [lookup_cons_ne hk, lookup_cons_ne hk, ih]

theorem sortKeysFields_keys : ∀ l, (sortKeysFields l).map Prod.fst = l.map Prod.fst := by
  intro l
  rw [sortKeysFields_eq_map]
  simp

theorem kind_sortKeysRec : ∀ j, (sortKeysRec j).kind = j.kind := by
  intro j
  cases j <;> rfl

mutual

/-- `RepresentsB e v = true` when the expectation tree `e` is one of the
representation-independent encodings of the data value `v`: the same value
built from literal scalars, recognized arrays/objects (object fields in any
order, keys unique on both sides), or unrecognized host composites (structs,
maps with non-string keys, unrecognized slices) holding the same data.
Capture slots and unmarshalable nodes represent no data value. -/
def RepresentsB : ExpectedNode → JSONValue → Bool
  | .null, .null => true
  | .bool b, .bool b' => b == b'
  | .int n, .num m => n == m
  | .str t, .str u => t == u
  | .array xs, .arr as_ => repList xs as_
  | .object fs, .obj afs =>
      decide (afs.map Prod.fst).Nodup && decide (fs.map Prod.fst).Nodup &&
        fs.length == afs.length && repFields fs afs
  | .hostStruct fs, .obj afs =>
      decide (afs.map Prod.fst).Nodup && decide (fs.map Prod.fst).Nodup &&
        fs.length == afs.length && repFields fs afs
  | .hostMap fs, .obj afs =>
      decide (afs.map Prod.fst).Nodup && decide (fs.map Prod.fst).Nodup &&
        fs.length == afs.length && repFields fs afs
  | .hostSlice xs, .arr as_ => repList xs as_
  | _, _ => false

/-- Pointwise `RepresentsB` on equal-length lists. -/
def repList : List ExpectedNode → List JSONValue → Bool
  | [], [] => true
  | e :: es, a :: as_ => RepresentsB e a && repList es as_
  | _, _ => false

/-- Every expected field's key resolves in the actual object to a
represented value. -/
def repFields : List (String × ExpectedNode) → List (String × JSONValue) → Bool
  | [], _ => true
  | (k, e) :: rest, afs =>
      (match afs.lookup k with
       | some a => RepresentsB e a
       | none => false) && repFields rest afs

end

theorem repFields_forall : ∀ (fs : List (String × ExpectedNode))
    (afs : List (String × JSONValue)), repFields fs afs = true →
    ∀ k e, (k, e) ∈ fs → ∃ a, afs.lookup k = some a ∧ RepresentsB e a = true := by
  intro fs
  induction fs with
  | nil => intro afs _ k e h; simp at h
  | cons p rest ih =>
      intro afs hrep k e hmem
      obtain ⟨k0, e0⟩ := p
      simp only [repFields, Bool.and_eq_true] at hrep
      rcases List.mem_cons.mp hmem with hmem | hmem
      · obtain ⟨h1, h2⟩ := Prod.ext_iff.mp hmem
        subst h1; subst h2
        match ha : afs.lookup k with
        | some a =>
            rw [ha] at hrep
            exact ⟨a, rfl, hrep.1⟩
        | none =>
            rw [ha] at hrep
            simp at hrep
      · exact ih afs hrep.2 k e hmem

theorem rep_keys_perm {fs : List (String × ExpectedNode)}
    {afs : List (String × JSONValue)}
    (hnd : (fs.map Prod.fst).Nodup) (hlen : fs.length = afs.length)
    (hrep : repFields fs afs = true) :
    (fs.map Prod.fst).Perm (afs.map Prod.fst) := by
  have hsub : fs.map Prod.fst ⊆ afs.map Prod.fst := by
    intro k hk
    obtain ⟨⟨k', e⟩, hmem, hfst⟩ := List.mem_map.mp hk
    obtain ⟨a, ha, _⟩ := repFields_forall fs afs hrep k' e hmem
    rw [← hfst]
    exact (lookup_isSome_iff afs k').mp (by rw [ha]; rfl)
  have hsp := List.subperm_of_subset hnd hsub
  exact hsp.perm_of_length_le (by simp [hlen])

mutual

theorem marshal_rep : ∀ (e : ExpectedNode) (v : JSONValue) (s : CaptureStore),
    RepresentsB e v = true → ∃ j, marshalGo s e = some j ∧ sortKeysRec j = sortKeysRec v
  | .null, v, s => fun h => by
      cases v <;> simp only [RepresentsB, Bool.false_eq_true] at h
      exact ⟨.null, rfl, rfl⟩
  | .bool b, v, s => fun h => by
      cases v <;> simp only [RepresentsB, beq_iff_eq, Bool.false_eq_true] at h
      subst h
      exact ⟨.bool b, rfl, rfl⟩
  | .int n, v, s => fun h => by
      cases v <;> simp only [RepresentsB, beq_iff_eq, Bool.false_eq_true] at h
      subst h
      exact ⟨.num n, rfl, rfl⟩
  | .str t, v, s => fun h => by
      cases v <;> simp only [RepresentsB, beq_iff_eq, Bool.false_eq_true] at h
      subst h
      exact ⟨.str t, rfl, rfl⟩
  | .array xs, v, s => fun h => by
      cases v <;> simp only [RepresentsB, Bool.false_eq_true] at h
      case arr as_ =>
        obtain ⟨js, hm, hsort⟩ := marshal_repList xs as_ s h
        refine ⟨.arr js, ?_, ?_⟩
        · show (marshalList s xs).map JSONValue.arr = _
          rw [hm]; rfl
        · show JSONValue.arr (sortKeysList js) = .arr (sortKeysList as_)
          rw [hsort]
  | .hostSlice xs, v, s => fun h => by
      cases v <;> simp only [RepresentsB, Bool.false_eq_true] at h
      case arr as_ =>
        obtain ⟨js, hm, hsort⟩ := marshal_repList xs as_ s h
        refine ⟨.arr js, ?_, ?_⟩
        · show (marshalList s xs).map JSONValue.arr = _
          rw [hm]; rfl
        · show JSONValue.arr (sortKeysList js) = .arr (sortKeysList as_)
          rw [hsort]
  | .object fs, v, s => fun h => by
      cases v <;> simp only [RepresentsB, Bool.false_eq_true] at h
      case obj afs =>
        simp only [Bool.and_eq_true, decide_eq_true_eq, beq_iff_eq] at h
        obtain ⟨⟨⟨hndA, hndF⟩, hlen⟩, hrep⟩ := h
        obtain ⟨mfs, hm, hkeys, hlook⟩ := marshal_repFields fs afs s hrep
        refine ⟨.obj (sortByKey mfs), ?_, ?_⟩
        · show (marshalFields s fs).map (fun l => JSONValue.obj (sortByKey l)) = _
          rw [hm]; rfl
        · show JSONValue.obj (sortByKey (sortKeysFields (sortByKey mfs))) =
            .obj (sortByKey (sortKeysFields afs))
          have hndKM : ((sortKeysFields mfs).map Prod.fst).Nodup := by
            rw [sortKeysFields_keys, hkeys]; exact hndF
          have hcm : sortKeysFields (sortByKey mfs) = sortByKey (sortKeysFields mfs) := by
            rw [sortKeysFields_eq_map, sortByKey_keymap (fun p => (p.1, sortKeysRec p.2)) (fun p => rfl),
              ← sortKeysFields_eq_map]
          rw [hcm, sortByKey_idem _ hndKM]
          congr 1
          apply sortByKey_eq_of_perm _ _ ?_ hndKM
          apply perm_of_lookup_eq _ _ hndKM
          · rw [sortKeysFields_keys, sortKeysFields_keys, hkeys]
            exact rep_keys_perm hndF hlen hrep
          · intro k
            rw [sortKeysFields_eq_map, sortKeysFields_eq_map, lookup_map_value,
              lookup_map_value]
            cases hfk : fs.lookup k with
            | some e' =>
                obtain ⟨j, a, hmj, haa, hja⟩ := hlook k e' hfk
                rw [hmj, haa]
                simpa using hja
            | none =>
                have hne : k ∉ fs.map Prod.fst := (lookup_eq_none_iff fs k).mp hfk
                have h1 : mfs.lookup k = none := by
                  rw [lookup_eq_none_iff, hkeys]; exact hne
                have h2 : afs.lookup k = none := by
                  rw [lookup_eq_none_iff]
                  intro hin
                  exact hne ((rep_keys_perm hndF hlen hrep).symm.subset hin)
                rw [h1, h2]
  | .hostMap fs, v, s => fun h => by
      cases v <;> simp only [RepresentsB, Bool.false_eq_true] at h
      case obj afs =>
        simp only [Bool.and_eq_true, decide_eq_true_eq, beq_iff_eq] at h
        obtain ⟨⟨⟨hndA, hndF⟩, hlen⟩, hrep⟩ := h
        obtain ⟨mfs, hm, hkeys, hlook⟩ := marshal_repFields fs afs s hrep
        refine ⟨.obj (sortByKey mfs), ?_, ?_⟩
        · show (marshalFields s fs).map (fun l => JSONValue.obj (sortByKey l)) = _
          rw [hm]; rfl
        · show JSONValue.obj (sortByKey (sortKeysFields (sortByKey mfs))) =
            .obj (sortByKey (sortKeysFields afs))
          have hndKM : ((sortKeysFields mfs).map Prod.fst).Nodup := by
            rw [sortKeysFields_keys, hkeys]; exact hndF
          have hcm : sortKeysFields (sortByKey mfs) = sortByKey (sortKeysFields mfs) := by
            rw [sortKeysFields_eq_map, sortByKey_keymap (fun p => (p.1, sortKeysRec p.2)) (fun p => rfl),
              ← sortKeysFields_eq_map]
          rw [hcm, sortByKey_idem _ hndKM]
          congr 1
          apply sortByKey_eq_of_perm _ _ ?_ hndKM
          apply perm_of_lookup_eq _ _ hndKM
          · rw [sortKeysFields_keys, sortKeysFields_keys, hkeys]
            exact rep_keys_perm hndF hlen hrep
          · intro k
            rw [sortKeysFields_eq_map, sortKeysFields_eq_map, lookup_map_value,
              lookup_map_value]
            cases hfk : fs.lookup k with
            | some e' =>
                obtain ⟨j, a, hmj, haa, hja⟩ := hlook k e' hfk
                rw [hmj, haa]
                simpa using hja
            | none =>
                have hne : k ∉ fs.map Prod.fst := (lookup_eq_none_iff fs k).mp hfk
                have h1 : mfs.lookup k = none := by
                  rw [lookup_eq_none_iff, hkeys]; exact hne
                have h2 : afs.lookup k = none := by
                  rw [lookup_eq_none_iff]
                  intro hin
                  exact hne ((rep_keys_perm hndF hlen hrep).symm.subset hin)
                rw [h1, h2]
  | .hostStruct fs, v, s => fun h => by
      cases v <;> simp only [RepresentsB, Bool.false_eq_true] at h
      case obj afs =>
        simp only [Bool.and_eq_true, decide_eq_true_eq, beq_iff_eq] at h
        obtain ⟨⟨⟨hndA, hndF⟩, hlen⟩, hrep⟩ := h
        obtain ⟨mfs, hm, hkeys, hlook⟩ := marshal_repFields fs afs s hrep
        refine ⟨.obj mfs, ?_, ?_⟩
        · show (marshalFields s fs).map JSONValue.obj = _
          rw [hm]; rfl
        · show JSONValue.obj (sortByKey (sortKeysFields mfs)) =
            .obj (sortByKey (sortKeysFields afs))
          have hndKM : ((sortKeysFields mfs).map Prod.fst).Nodup := by
            rw [sortKeysFields_keys, hkeys]; exact hndF
          congr 1
          apply sortByKey_eq_of_perm _ _ ?_ hndKM
          apply perm_of_lookup_eq _ _ hndKM
          · rw [sortKeysFields_keys, sortKeysFields_keys, hkeys]
            exact rep_keys_perm hndF hlen hrep
          · intro k
            rw [sortKeysFields_eq_map, sortKeysFields_eq_map, lookup_map_value,
              lookup_map_value]
            cases hfk : fs.lookup k with
            | some e' =>
                obtain ⟨j, a, hmj, haa, hja⟩ := hlook k e' hfk
                rw [hmj, haa]
                simpa using hja
            | none =>
                have hne : k ∉ fs.map Prod.fst := (lookup_eq_none_iff fs k).mp hfk
                have h1 : mfs.lookup k = none := by
                  rw [lookup_eq_none_iff, hkeys]; exact hne
                have h2 : afs.lookup k = none := by
                  rw [lookup_eq_none_iff]
                  intro hin
                  exact hne ((rep_keys_perm hndF hlen hrep).symm.subset hin)
                rw [h1, h2]
  | .capture slot ty, v, s => fun h => by
      cases v <;> simp only [RepresentsB, Bool.false_eq_true] at h
  | .failing r t, v, s => fun h => by
      cases v <;> simp only [RepresentsB, Bool.false_eq_true] at h

theorem marshal_repList : ∀ (xs : List ExpectedNode) (as_ : List JSONValue)
    (s : CaptureStore), repList xs as_ = true →
    ∃ js, marshalList s xs = some js ∧ sortKeysList js = sortKeysList as_
  | [], as_, s => fun h => by
      cases as_ <;> simp only [repList, Bool.false_eq_true] at h
      exact ⟨[], rfl, rfl⟩
  | e :: es, as_, s => fun h => by
      cases as_ with
      | nil => simp only [repList, Bool.false_eq_true] at h
      | cons a as' =>
          simp only [repList, Bool.and_eq_true] at h
          obtain ⟨j, hj, hjs⟩ := marshal_rep e a s h.1
          obtain ⟨js, hm, hsort⟩ := marshal_repList es as' s h.2
          refine ⟨j :: js, ?_, ?_⟩
          · show (match marshalGo s e, marshalList s es with
              | some j, some js => some (j :: js)
              | _, _ => none) = _
            rw [hj, hm]
          · show sortKeysRec j :: sortKeysList js = sortKeysRec a :: sortKeysList as'
            rw [hjs, hsort]

theorem marshal_repFields : ∀ (fs : List (String × ExpectedNode))
    (afs : List (String × JSONValue)) (s : CaptureStore), repFields fs afs = true →
    ∃ mfs, marshalFields s fs = some mfs ∧ mfs.map Prod.fst = fs.map Prod.fst ∧
      ∀ k e', fs.lookup k = some e' → ∃ j a, mfs.lookup k = some j ∧
        afs.lookup k = some a ∧ sortKeysRec j = sortKeysRec a
  | [], afs, s => fun _ => ⟨[], rfl, rfl, fun k e' h => by simp [List.lookup] at h⟩
  | (k0, e0) :: rest, afs, s => fun h => by
      simp only [repFields, Bool.and_eq_true] at h
      obtain ⟨h0, hrest⟩ := h
      cases ha0 : afs.lookup k0 with
      | none => rw [ha0] at h0; simp at h0
      | some a0 =>
          rw [ha0] at h0
          obtain ⟨j0, hj0, hsort0⟩ := marshal_rep e0 a0 s h0
          obtain ⟨mfs, hm, hkeys, hlook⟩ := marshal_repFields rest afs s hrest
          refine ⟨(k0, j0) :: mfs, ?_, ?_, ?_⟩
          · show (match marshalGo s e0, marshalFields s rest with
              | some j, some js => some ((k0, j) :: js)
              | _, _ => none) = _
            rw [hj0, hm]
          · simp [hkeys]
          · intro k e' hfk
            by_cases hk : k = k0
            · subst hk
              rw [lookup_cons_self] at hfk
              simp only [Option.some.injEq] at hfk
              subst hfk
              exact ⟨j0, a0, lookup_cons_self _ _ _, ha0, hsort0⟩
            · rw [lookup_cons_ne hk] at hfk
              obtain ⟨j, a, hmj, haa, hja⟩ := hlook k e' hfk
              exact ⟨j, a, by rw [lookup_cons_ne hk]; exact hmj, haa, hja⟩

end

theorem lookup_compareFieldsFns : ∀ (fs : List (String × ExpectedNode)) (k : String),
    (compareFieldsFns fs).lookup k = (fs.lookup k).map compareV
  | [], _ => rfl
  | (k0, e0) :: rest, k => by
      by_cases hk : k = k0
      · subst hk
        show ((k, compareV e0) :: compareFieldsFns rest).lookup k = _
        rw [lookup_cons_self, lookup_cons_self]
        rfl
      · show ((k0, compareV e0) :: compareFieldsFns rest).lookup k = _
        rw [lookup_cons_ne hk, lookup_cons_ne hk, lookup_compareFieldsFns rest k]

theorem compareList_length : ∀ (xs : List ExpectedNode),
    (compareList xs).length = xs.length
  | [] => rfl
  | x :: rest => by
      show ((x, compareV x) :: compareList rest).length = (x :: rest).length
      simp [compareList_length rest]

theorem repList_length : ∀ (xs : List ExpectedNode) (as_ : List JSONValue),
    repList xs as_ = true → xs.length = as_.length
  | [], [], _ => rfl
  | [], _ :: _, h => by simp only [repList, Bool.false_eq_true] at h
  | _ :: _, [], h => by simp only [repList, Bool.false_eq_true] at h
  | x :: xs', a :: as', h => by
      simp only [repList, Bool.and_eq_true] at h
      simp [repList_length xs' as' h.2]

theorem repList_zip : ∀ (xs : List ExpectedNode) (as_ : List JSONValue),
    repList xs as_ = true → ∀ e a, (e, a) ∈ xs.zip as_ → RepresentsB e a = true
  | [], as_, _ => by intro e a hm; simp at hm
  | x :: xs', as_, h => by
      cases as_ with
      | nil => intro e a hm; simp at hm
      | cons a0 as' =>
          simp only [repList, Bool.and_eq_true] at h
          intro e a hm
          rw [List.zip_cons_cons] at hm
          rcases List.mem_cons.mp hm with hm | hm
          · obtain ⟨h1, h2⟩ := Prod.ext_iff.mp hm
            subst h1; subst h2
            exact h.1
          · exact repList_zip xs' as' h.2 e a hm

theorem compareList_zip_mem : ∀ (xs : List ExpectedNode) (as_ : List JSONValue)
    (pr : ExpectedNode × Cmp) (a : JSONValue), (pr, a) ∈ (compareList xs).zip as_ →
    pr.2 = compareV pr.1 ∧ (pr.1, a) ∈ xs.zip as_
  | [], as_, pr, a => by intro h; simp [compareList] at h
  | x :: rest, as_, pr, a => by
      cases as_ with
      | nil => intro h; simp at h
      | cons a0 as' =>
          intro h
          rw [show compareList (x :: rest) = (x, compareV x) :: compareList rest from rfl,
            List.zip_cons_cons] at h
          rcases List.mem_cons.mp h with h | h
          · simp only [Prod.mk.injEq] at h
            obtain ⟨h1, h2⟩ := h
            subst h1; subst h2
            exact ⟨rfl, by rw [List.zip_cons_cons]; simp⟩
          · obtain ⟨h1, h2⟩ := compareList_zip_mem rest as' pr a h
            exact ⟨h1, by rw [List.zip_cons_cons]; exact List.mem_cons_of_mem _ h2⟩

theorem walkArray_nil : ∀ (ps : List (ExpectedNode × Cmp)) (as_ : List JSONValue),
    ps.length = as_.length →
    (∀ pr a, (pr, a) ∈ ps.zip as_ → ∀ s path, pr.2 s a path = ([], s)) →
    ∀ i path s, walkArray ps as_ i path s = ([], s) := by
  intro ps
  induction ps with
  | nil =>
      intro as_ hlen _ i path s
      cases as_ with
      | nil => rfl
      | cons a as' => simp at hlen
  | cons pr rest ih =>
      intro as_ hlen hpt i path s
      cases as_ with
      | nil => simp at hlen
      | cons a as' =>
          obtain ⟨e, c⟩ := pr
          simp only [walkArray]
          have h1 : c s a (idxPath path i) = ([], s) :=
            hpt (e, c) a (by rw [List.zip_cons_cons]; simp) s (idxPath path i)
          rw [h1]
          have h2 := ih as' (by simpa using hlen)
            (fun pr' a' hm => hpt pr' a'
              (by rw [List.zip_cons_cons]; exact List.mem_cons_of_mem _ hm)) (i + 1) path s
          rw [h2]
          rfl

theorem walkObjActual_nil (cfs : List (String × Cmp)) :
    ∀ (afs : List (String × JSONValue)),
    (∀ k av, (k, av) ∈ afs →
      ∃ c, cfs.lookup k = some c ∧ ∀ s p, c s av p = ([], s)) →
    ∀ path s, walkObjActual cfs afs path s = ([], s) := by
  intro afs
  induction afs with
  | nil => intro _ path s; rfl
  | cons p rest ih =>
      intro h path s
      obtain ⟨k, av⟩ := p
      obtain ⟨c, hc, hcall⟩ := h k av (by simp)
      simp only [walkObjActual, hc]
      rw [hcall]
      rw [ih (fun k' av' hm => h k' av' (List.mem_cons_of_mem _ hm)) path s]
      rfl

theorem contains_of_mem {k : String} {l : List String} (h : k ∈ l) :
    l.contains k = true :=
  List.elem_iff.mpr h

theorem missingKeyDiffs_nil (s : CaptureStore) (path : String)
    (actualKeys : List String) :
    ∀ entries, (∀ k e, (k, e) ∈ entries → actualKeys.contains k = true) →
    missingKeyDiffs s path actualKeys entries = [] := by
  intro entries
  induction entries with
  | nil => intro _; rfl
  | cons p rest ih =>
      intro h
      obtain ⟨k, e⟩ := p
      simp only [missingKeyDiffs]
      rw [h k e (by simp)]
      simp only [if_true]
      exact ih (fun k' e' hm => h k' e' (List.mem_cons_of_mem _ hm))

theorem opaqueCompare_rep (e : ExpectedNode) (v : JSONValue) (s : CaptureStore)
    (path : String) (h : RepresentsB e v = true) :
    opaqueCompare e s v path = ([], s) := by
  obtain ⟨j, hm, hsort⟩ := marshal_rep e v s h
  simp only [opaqueCompare, hm]
  have hkind : j.kind = v.kind := by
    rw [← kind_sortKeysRec j, ← kind_sortKeysRec v, hsort]
  rw [if_pos hkind]
  have hceq : canonEq j v = true := by
    unfold canonEq
    rw [hsort]
    exact (jeq_iff_eq _ _).mpr rfl
  rw [hceq]
  simp only [if_true]

theorem rep_compare : ∀ (N : Nat) (e : ExpectedNode) (v : JSONValue),
    sizeE e ≤ N → RepresentsB e v = true →
    ∀ s path, compareV e s v path = ([], s) := by
  intro N
  induction N with
  | zero =>
      intro e v hsz
      exact absurd hsz (by have := sizeE_pos e; omega)
  | succ n ih =>
      intro e v hsz hrep s path
      cases e with
      | null =>
          cases v <;> simp only [RepresentsB, Bool.false_eq_true] at hrep
          rfl
      | bool b =>
          cases v <;>
            simp only [RepresentsB, beq_iff_eq, Bool.false_eq_true] at hrep
          subst hrep
          simp [compareV]
      | int m =>
          cases v <;>
            simp only [RepresentsB, beq_iff_eq, Bool.false_eq_true] at hrep
          subst hrep
          simp [compareV]
      | str t =>
          cases v <;>
            simp only [RepresentsB, beq_iff_eq, Bool.false_eq_true] at hrep
          subst hrep
          simp [compareV]
      | capture slot ty =>
          cases v <;> simp only [RepresentsB, Bool.false_eq_true] at hrep
      | failing r t =>
          cases v <;> simp only [RepresentsB, Bool.false_eq_true] at hrep
      | hostStruct fs =>
          exact opaqueCompare_rep (.hostStruct fs) v s path hrep
      | hostMap fs =>
          exact opaqueCompare_rep (.hostMap fs) v s path hrep
      | hostSlice xs =>
          exact opaqueCompare_rep (.hostSlice xs) v s path hrep
      | array xs =>
          cases v <;> simp only [RepresentsB, Bool.false_eq_true] at hrep
          case arr as_ =>
            show walkArray (compareList xs) as_ 0 path s = ([], s)
            apply walkArray_nil
            · rw [compareList_length]; exact repList_length xs as_ hrep
            · intro pr a hm s' path'
              obtain ⟨hpr, hmem⟩ := compareList_zip_mem xs as_ pr a hm
              rw [hpr]
              apply ih
              · have h1 : sizeE pr.1 < sizeEList xs :=
                  sizeE_lt_of_mem xs pr.1 (List.of_mem_zip hmem).1
                simp only [sizeE] at hsz
                omega
              · exact repList_zip xs as_ hrep pr.1 a hmem
      | object fs =>
          cases v <;> simp only [RepresentsB, Bool.false_eq_true] at hrep
          case obj afs =>
            simp only [Bool.and_eq_true, decide_eq_true_eq, beq_iff_eq] at hrep
            obtain ⟨⟨⟨hndA, hndF⟩, hlen⟩, hfs⟩ := hrep
            have hC : compareV (.object fs) s (.obj afs) path =
                ((walkObjActual (compareFieldsFns fs) afs path s).1 ++
                  missingKeyDiffs (walkObjActual (compareFieldsFns fs) afs path s).2
                    path (afs.map Prod.fst) (sortByKey fs),
                 (walkObjActual (compareFieldsFns fs) afs path s).2) := rfl
            have hwalk : walkObjActual (compareFieldsFns fs) afs path s = ([], s) := by
              apply walkObjActual_nil
              intro k av hmem
              have hl : afs.lookup k = some av := mem_lookup hndA hmem
              have hkin : k ∈ fs.map Prod.fst :=
                (rep_keys_perm hndF hlen hfs).mem_iff.mpr
                  (List.mem_map.mpr ⟨(k, av), hmem, rfl⟩)
              obtain ⟨e', he'⟩ :=
                Option.isSome_iff_exists.mp ((lookup_isSome_iff fs k).mpr hkin)
              refine ⟨compareV e', ?_, ?_⟩
              · rw [lookup_compareFieldsFns, he']; rfl
              · intro s' p'
                apply ih
                · have h1 : sizeE e' < sizeEFields fs :=
                    sizeE_lt_of_mem_fields fs k e' (lookup_mem he')
                  simp only [sizeE] at hsz
                  omega
                · obtain ⟨a, ha, hr⟩ := repFields_forall fs afs hfs k e' (lookup_mem he')
                  rw [hl] at ha
                  simp only [Option.some.injEq] at ha
                  rw [ha]
                  exact hr
            have hmk : missingKeyDiffs s path (afs.map Prod.fst) (sortByKey fs) = [] := by
              apply missingKeyDiffs_nil
              intro k e hmem
              have hkf : k ∈ fs.map Prod.fst :=
                List.mem_map.mpr ⟨(k, e), (sortByKey_perm fs).subset hmem, rfl⟩
              exact contains_of_mem ((rep_keys_perm hndF hlen hfs).subset hkf)
            rw [hC, hwalk]
            show ([] ++ missingKeyDiffs s path (afs.map Prod.fst) (sortByKey fs), s) =
              ([], s)
            rw [hmk]
            rfl

/-- Modelled from the spec: the `TestCanonicalizesActualPayload` data value,
as a parsed JSON tree. -/
def c1v : JSONValue :=
  .obj [("data", .obj [("qux", .arr [.num 5, .null, .num 15]),
                       ("foo", .num 42), ("bar", .str "hello world")])]

/-- The same data value built as a plain-map expectation, one key order. -/
def c1map : ExpectedNode :=
  .object [("data", .object [("foo", .int 42), ("bar", .str "hello world"),
                             ("qux", .array [.int 5, .null, .int 15])])]

/-- The same data value built from an equivalent struct, fields in
declaration order. -/
def c1struct : ExpectedNode :=
  .hostStruct [("data", .hostStruct [("foo", .int 42), ("bar", .str "hello world"),
                                     ("qux", .hostSlice [.int 5, .null, .int 15])])]

/-- The same data value built as an equivalent differently-ordered map. -/
def c1map2 : ExpectedNode :=
  .object [("data", .object [("qux", .array [.int 5, .null, .int 15]),
                             ("bar", .str "hello world"), ("foo", .int 42)])]

/-- C1: for any data value `v`, any expectation tree that encodes `v` —
via a plain map, an equivalent struct or host map, or an equivalent
differently-ordered map, in any mixture at any depth — yields an empty
diff sequence against `v`'s own JSON encoding: canonicalization makes
comparison representation-independent. -/
theorem C1_representation_independence (s : CaptureStore) (e : ExpectedNode)
    (v : JSONValue) (h : RepresentsB e v = true) :
    DiffAgainst s e (strBytes (renderJ v)) = ([], s) := by
  unfold DiffAgainst
  rw [parsePayload_render]
  show compareV e s v "" = ([], s)
  exact rep_compare (sizeE e) e v le_rfl h s ""

set_option maxRecDepth 40000 in
/-- Witness: C1 applied to the `TestCanonicalizesActualPayload` value in its
plain-map, struct and differently-ordered-map representations. -/
theorem C1_representation_independence_witness :
    (RepresentsB c1map c1v = true ∧
      DiffAgainst [] c1map (strBytes (renderJ c1v)) = ([], [])) ∧
    (RepresentsB c1struct c1v = true ∧
      DiffAgainst [] c1struct (strBytes (renderJ c1v)) = ([], [])) ∧
    (RepresentsB c1map2 c1v = true ∧
      DiffAgainst [] c1map2 (strBytes (renderJ c1v)) = ([], [])) :=
  ⟨⟨by decide, C1_representation_independence [] c1map c1v (by decide)⟩,
   ⟨by decide, C1_representation_independence [] c1struct c1v (by decide)⟩,
   ⟨by decide, C1_representation_independence [] c1map2 c1v (by decide)⟩⟩

mutual

/-- `ExpEquivB e e' = true` when `e` and `e'` are two enumerations of the
same expectation: identical scalars, captures and failing nodes, pointwise
equivalent arrays, slices and structs (whose element/field order is fixed
in the host language), and maps/objects whose unordered field sets agree up
to enumeration order (keys unique on both sides). Two runs of a program
that builds the expected tree from an unordered mapping differ at most by
such an enumeration. -/
def ExpEquivB : ExpectedNode → ExpectedNode → Bool
  | .null, .null => true
  | .bool b, .bool b' => b == b'
  | .int n, .int m => n == m
  | .str t, .str u => t == u
  | .capture s1 t1, .capture s2 t2 => s1 == s2 && decide (t1 = t2)
  | .failing r1 t1, .failing r2 t2 => r1 == r2 && t1 == t2
  | .array xs, .array ys => eqvList xs ys
  | .hostSlice xs, .hostSlice ys => eqvList xs ys
  | .hostStruct fs, .hostStruct gs => eqvFieldsPw fs gs
  | .object fs, .object gs =>
      decide (fs.map Prod.fst).Nodup && decide (gs.map Prod.fst).Nodup &&
        fs.length == gs.length && eqvFieldsLookup fs gs
  | .hostMap fs, .hostMap gs =>
      decide (fs.map Prod.fst).Nodup && decide (gs.map Prod.fst).Nodup &&
        fs.length == gs.length && eqvFieldsLookup fs gs
  | _, _ => false
termination_by structural e _ => e

/-- Pointwise `ExpEquivB` on equal-length lists. -/
def eqvList : List ExpectedNode → List ExpectedNode → Bool
  | [], [] => true
  | x :: xs, y :: ys => ExpEquivB x y && eqvList xs ys
  | _, _ => false
termination_by structural xs _ => xs

/-- Pointwise `ExpEquivB` on field lists with identical key order. -/
def eqvFieldsPw : List (String × ExpectedNode) → List (String × ExpectedNode) → Bool
  | [], [] => true
  | (k, x) :: xs, (k', y) :: ys => k == k' && ExpEquivB x y && eqvFieldsPw xs ys
  | _, _ => false
termination_by structural xs _ => xs

/-- Every field of the first enumeration resolves by key in the second to
an equivalent value. -/
def eqvFieldsLookup : List (String × ExpectedNode) →
    List (String × ExpectedNode) → Bool
  | [], _ => true
  | (k, x) :: rest, gs =>
      (match gs.lookup k with
       | some y => ExpEquivB x y
       | none => false) && eqvFieldsLookup rest gs
termination_by structural fs _ => fs

end

theorem eqvFields_forall : ∀ (fs gs : List (String × ExpectedNode)),
    eqvFieldsLookup fs gs = true →
    ∀ k x, (k, x) ∈ fs → ∃ y, gs.lookup k = some y ∧ ExpEquivB x y = true := by
  intro fs
  induction fs with
  | nil => intro gs _ k x h; simp at h
  | cons p rest ih =>
      intro gs heqv k x hmem
      obtain ⟨k0, x0⟩ := p
      simp only [eqvFieldsLookup, Bool.and_eq_true] at heqv
      rcases List.mem_cons.mp hmem with hmem | hmem
      · obtain ⟨h1, h2⟩ := Prod.ext_iff.mp hmem
        subst h1; subst h2
        match ha : gs.lookup k with
        | some y =>
            rw [ha] at heqv
            exact ⟨y, rfl, heqv.1⟩
        | none =>
            rw [ha] at heqv
            simp at heqv
      · exact ih gs heqv.2 k x hmem

theorem eqv_keys_perm {fs gs : List (String × ExpectedNode)}
    (hnd : (fs.map Prod.fst).Nodup) (hlen : fs.length = gs.length)
    (heqv : eqvFieldsLookup fs gs = true) :
    (fs.map Prod.fst).Perm (gs.map Prod.fst) := by
  have hsub : fs.map Prod.fst ⊆ gs.map Prod.fst := by
    intro k hk
    obtain ⟨⟨k', x⟩, hmem, hfst⟩ := List.mem_map.mp hk
    obtain ⟨y, hy, _⟩ := eqvFields_forall fs gs heqv k' x hmem
    rw [← hfst]
    exact (lookup_isSome_iff gs k').mp (by rw [hy]; rfl)
  have hsp := List.subperm_of_subset hnd hsub
  exact hsp.perm_of_length_le (by simp [hlen])

theorem marshalFields_keys : ∀ (fs : List (String × ExpectedNode)) (s : CaptureStore)
    (mfs : List (String × JSONValue)), marshalFields s fs = some mfs →
    mfs.map Prod.fst = fs.map Prod.fst
  | [], s, mfs => by
      intro h
      simp only [marshalFields, Option.some.injEq] at h
      subst h
      rfl
  | (k0, e0) :: rest, s, mfs => by
      intro h
      simp only [marshalFields] at h
      cases hj : marshalGo s e0 with
      | none => rw [hj] at h; simp at h
      | some j0 =>
          rw [hj] at h
          cases hr : marshalFields s rest with
          | none => rw [hr] at h; simp at h
          | some mrest =>
              rw [hr] at h
              simp only [Option.some.injEq] at h
              subst h
              simp [marshalFields_keys rest s mrest hr]

theorem marshalFields_lookup : ∀ (fs : List (String × ExpectedNode)) (s : CaptureStore)
    (mfs : List (String × JSONValue)), marshalFields s fs = some mfs →
    ∀ k, mfs.lookup k = (fs.lookup k).bind (marshalGo s)
  | [], s, mfs => by
      intro h k
      simp only [marshalFields, Option.some.injEq] at h
      subst h
      rfl
  | (k0, e0) :: rest, s, mfs => by
      intro h k
      simp only [marshalFields] at h
      cases hj : marshalGo s e0 with
      | none => rw [hj] at h; simp at h
      | some j0 =>
          rw [hj] at h
          cases hr : marshalFields s rest with
          | none => rw [hr] at h; simp at h
          | some mrest =>
              rw [hr] at h
              simp only [Option.some.injEq] at h
              subst h
              by_cases hk : k = k0
              · subst hk
                rw [lookup_cons_self, lookup_cons_self]
                simp [hj]
              · rw [lookup_cons_ne hk, lookup_cons_ne hk]
                exact marshalFields_lookup rest s mrest hr k

theorem marshalFields_isSome : ∀ (fs : List (String × ExpectedNode)) (s : CaptureStore),
    (marshalFields s fs).isSome = true ↔ ∀ p ∈ fs, (marshalGo s p.2).isSome = true
  | [], s => by simp [marshalFields]
  | (k0, e0) :: rest, s => by
      simp only [marshalFields]
      constructor
      · intro h p hp
        cases hj : marshalGo s e0 with
        | none => rw [hj] at h; simp at h
        | some j0 =>
            rw [hj] at h
            cases hr : marshalFields s rest with
            | none => rw [hr] at h; simp at h
            | some mrest =>
                rcases List.mem_cons.mp hp with hp | hp
                · subst hp; simp [hj]
                · exact (marshalFields_isSome rest s).mp (by rw [hr]; rfl) p hp
      · intro h
        have h0 : (marshalGo s e0).isSome = true := h (k0, e0) (by simp)
        have hr : (marshalFields s rest).isSome = true :=
          (marshalFields_isSome rest s).mpr (fun p hp => h p (List.mem_cons_of_mem _ hp))
        obtain ⟨j0, hj⟩ := Option.isSome_iff_exists.mp h0
        obtain ⟨mrest, hmr⟩ := Option.isSome_iff_exists.mp hr
        rw [hj, hmr]
        rfl

theorem eqvList_length : ∀ (xs ys : List ExpectedNode),
    eqvList xs ys = true → xs.length = ys.length
  | [], [], _ => rfl
  | [], _ :: _, h => by simp only [eqvList, Bool.false_eq_true] at h
  | _ :: _, [], h => by simp only [eqvList, Bool.false_eq_true] at h
  | x :: xs', y :: ys', h => by
      simp only [eqvList, Bool.and_eq_true] at h
      simp [eqvList_length xs' ys' h.2]

theorem eqvList_zip : ∀ (xs ys : List ExpectedNode),
    eqvList xs ys = true → ∀ x y, (x, y) ∈ xs.zip ys → ExpEquivB x y = true
  | [], ys, _ => by intro x y hm; simp at hm
  | x0 :: xs', ys, h => by
      cases ys with
      | nil => intro x y hm; simp at hm
      | cons y0 ys' =>
          simp only [eqvList, Bool.and_eq_true] at h
          intro x y hm
          rw [List.zip_cons_cons] at hm
          rcases List.mem_cons.mp hm with hm | hm
          · obtain ⟨h1, h2⟩ := Prod.ext_iff.mp hm
            subst h1; subst h2
            exact h.1
          · exact eqvList_zip xs' ys' h.2 x y hm

theorem eqvFieldsPw_keys : ∀ (fs gs : List (String × ExpectedNode)),
    eqvFieldsPw fs gs = true → fs.map Prod.fst = gs.map Prod.fst
  | [], [], _ => rfl
  | [], _ :: _, h => by simp only [eqvFieldsPw, Bool.false_eq_true] at h
  | _ :: _, [], h => by simp only [eqvFieldsPw, Bool.false_eq_true] at h
  | (k, x) :: fs', (k', y) :: gs', h => by
      simp only [eqvFieldsPw, Bool.and_eq_true, beq_iff_eq] at h
      obtain ⟨⟨h1, _⟩, h2⟩ := h
      subst h1
      simp [eqvFieldsPw_keys fs' gs' h2]

theorem eqvFieldsPw_zip : ∀ (fs gs : List (String × ExpectedNode)),
    eqvFieldsPw fs gs = true →
    ∀ p q, (p, q) ∈ fs.zip gs → ExpEquivB p.2 q.2 = true
  | [], gs, _ => by intro p q hm; simp at hm
  | (k, x) :: fs', gs, h => by
      cases gs with
      | nil => intro p q hm; simp at hm
      | cons q0 gs' =>
          obtain ⟨k', y⟩ := q0
          simp only [eqvFieldsPw, Bool.and_eq_true, beq_iff_eq] at h
          intro p q hm
          rw [List.zip_cons_cons] at hm
          rcases List.mem_cons.mp hm with hm | hm
          · simp only [Prod.mk.injEq] at hm
            obtain ⟨h1, h2⟩ := hm
            subst h1; subst h2
            exact h.1.2
          · exact eqvFieldsPw_zip fs' gs' h.2 p q hm

theorem marshalList_congr (s : CaptureStore) : ∀ (xs ys : List ExpectedNode),
    xs.length = ys.length →
    (∀ x y, (x, y) ∈ xs.zip ys → marshalGo s x = marshalGo s y) →
    marshalList s xs = marshalList s ys := by
  intro xs
  induction xs with
  | nil =>
      intro ys hlen _
      cases ys with
      | nil => rfl
      | cons y ys' => simp at hlen
  | cons x xs' ih =>
      intro ys hlen hpt
      cases ys with
      | nil => simp at hlen
      | cons y ys' =>
          simp only [marshalList]
          rw [hpt x y (by rw [List.zip_cons_cons]; simp),
            ih ys' (by simpa using hlen)
              (fun x' y' hm => hpt x' y'
                (by rw [List.zip_cons_cons]; exact List.mem_cons_of_mem _ hm))]

theorem marshalFieldsPw_congr (s : CaptureStore) :
    ∀ (fs gs : List (String × ExpectedNode)),
    fs.map Prod.fst = gs.map Prod.fst →
    (∀ p q, (p, q) ∈ fs.zip gs → marshalGo s p.2 = marshalGo s q.2) →
    marshalFields s fs = marshalFields s gs := by
  intro fs
  induction fs with
  | nil =>
      intro gs hkeys _
      cases gs with
      | nil => rfl
      | cons q gs' => simp at hkeys
  | cons p fs' ih =>
      intro gs hkeys hpt
      cases gs with
      | nil => simp at hkeys
      | cons q gs' =>
          obtain ⟨k, x⟩ := p
          obtain ⟨k', y⟩ := q
          simp only [List.map_cons, List.cons.injEq] at hkeys
          obtain ⟨hk, hks⟩ := hkeys
          subst hk
          simp only [marshalFields]
          rw [show marshalGo s x = marshalGo s y from
              hpt (k, x) (k, y) (by rw [List.zip_cons_cons]; simp),
            ih gs' hks
              (fun p' q' hm => hpt p' q'
                (by rw [List.zip_cons_cons]; exact List.mem_cons_of_mem _ hm))]

theorem notMarshalableText_eqv : ∀ (e e' : ExpectedNode), ExpEquivB e e' = true →
    notMarshalableText e = notMarshalableText e' := by
  intro e e' h
  cases e <;> cases e' <;> simp only [ExpEquivB, Bool.false_eq_true] at h <;>
    try rfl
  case failing.failing r1 t1 r2 t2 =>
    simp only [Bool.and_eq_true, beq_iff_eq] at h
    obtain ⟨h1, h2⟩ := h
    subst h1
    rfl

theorem marshalFields_eqvLookup (s : CaptureStore)
    (fs gs : List (String × ExpectedNode))
    (hndF : (fs.map Prod.fst).Nodup) (hndG : (gs.map Prod.fst).Nodup)
    (hlen : fs.length = gs.length) (hlk : eqvFieldsLookup fs gs = true)
    (hm : ∀ k x y, fs.lookup k = some x → gs.lookup k = some y →
      marshalGo s x = marshalGo s y) :
    (marshalFields s fs).map (fun l => JSONValue.obj (sortByKey l)) =
      (marshalFields s gs).map (fun l => JSONValue.obj (sortByKey l)) := by
  have hkp := eqv_keys_perm hndF hlen hlk
  cases hf : marshalFields s fs with
  | none =>
      cases hg : marshalFields s gs with
      | none => rfl
      | some mgs =>
          exfalso
          have hno : ¬ ∀ p ∈ fs, (marshalGo s p.2).isSome = true := fun hall => by
            have h2 := (marshalFields_isSome fs s).mpr hall
            rw [hf] at h2
            simp at h2
          push_neg at hno
          obtain ⟨p, hp, hns⟩ := hno
          have hfl : fs.lookup p.1 = some p.2 :=
            mem_lookup hndF (by rw [Prod.mk.eta]; exact hp)
          obtain ⟨y, hy, _⟩ := eqvFields_forall fs gs hlk p.1 p.2 (lookup_mem hfl)
          have heqm : marshalGo s p.2 = marshalGo s y := hm p.1 p.2 y hfl hy
          have hys : (marshalGo s y).isSome = true :=
            (marshalFields_isSome gs s).mp (by rw [hg]; rfl) (p.1, y) (lookup_mem hy)
          rw [← heqm] at hys
          exact hns hys
  | some mfs =>
      cases hg : marshalFields s gs with
      | none =>
          exfalso
          have hno : ¬ ∀ q ∈ gs, (marshalGo s q.2).isSome = true := fun hall => by
            have h2 := (marshalFields_isSome gs s).mpr hall
            rw [hg] at h2
            simp at h2
          push_neg at hno
          obtain ⟨q, hq, hns⟩ := hno
          have hkin : q.1 ∈ fs.map Prod.fst :=
            hkp.mem_iff.mpr (List.mem_map.mpr ⟨q, hq, rfl⟩)
          obtain ⟨x, hx⟩ :=
            Option.isSome_iff_exists.mp ((lookup_isSome_iff fs q.1).mpr hkin)
          have hgl : gs.lookup q.1 = some q.2 :=
            mem_lookup hndG (by rw [Prod.mk.eta]; exact hq)
          have heqm : marshalGo s x = marshalGo s q.2 := hm q.1 x q.2 hx hgl
          have hxs : (marshalGo s x).isSome = true :=
            (marshalFields_isSome fs s).mp (by rw [hf]; rfl) (q.1, x) (lookup_mem hx)
          rw [heqm] at hxs
          exact hns hxs
      | some mgs =>
          have hnd : (mfs.map Prod.fst).Nodup := by
            rw [marshalFields_keys fs s mfs hf]
            exact hndF
          have hsort : sortByKey mfs = sortByKey mgs := by
            apply sortByKey_eq_of_perm _ _ ?_ hnd
            apply perm_of_lookup_eq _ _ hnd
            · rw [marshalFields_keys fs s mfs hf, marshalFields_keys gs s mgs hg]
              exact hkp
            · intro k
              rw [marshalFields_lookup fs s mfs hf k, marshalFields_lookup gs s mgs hg k]
              cases hfk : fs.lookup k with
              | some x =>
                  obtain ⟨y, hy, _⟩ := eqvFields_forall fs gs hlk k x (lookup_mem hfk)
                  rw [hy]
                  show marshalGo s x = marshalGo s y
                  exact hm k x y hfk hy
              | none =>
                  have hgk : gs.lookup k = none := by
                    rw [lookup_eq_none_iff]
                    intro hin
                    exact (lookup_eq_none_iff fs k).mp hfk (hkp.mem_iff.mpr hin)
                  rw [hgk]
          show some (JSONValue.obj (sortByKey mfs)) = some (.obj (sortByKey mgs))
          rw [hsort]

theorem marshal_eqv : ∀ (N : Nat) (e e' : ExpectedNode), sizeE e ≤ N →
    ExpEquivB e e' = true → ∀ s, marshalGo s e = marshalGo s e' := by
  intro N
  induction N with
  | zero =>
      intro e e' hsz
      exact absurd hsz (by have := sizeE_pos e; omega)
  | succ n ih =>
      intro e e' hsz heqv s
      cases e with
      | null =>
          cases e' <;> simp only [ExpEquivB, Bool.false_eq_true] at heqv
          rfl
      | bool b =>
          cases e' <;>
            simp only [ExpEquivB, beq_iff_eq, Bool.false_eq_true] at heqv
          subst heqv; rfl
      | int m =>
          cases e' <;>
            simp only [ExpEquivB, beq_iff_eq, Bool.false_eq_true] at heqv
          subst heqv; rfl
      | str t =>
          cases e' <;>
            simp only [ExpEquivB, beq_iff_eq, Bool.false_eq_true] at heqv
          subst heqv; rfl
      | capture slot ty =>
          cases e' <;> simp only [ExpEquivB, Bool.and_eq_true, beq_iff_eq,
            decide_eq_true_eq, Bool.false_eq_true] at heqv
          obtain ⟨h1, h2⟩ := heqv
          subst h1; subst h2; rfl
      | failing r t =>
          cases e' <;> simp only [ExpEquivB, Bool.and_eq_true, beq_iff_eq,
            Bool.false_eq_true] at heqv
          rfl
      | array xs =>
          cases e' <;> simp only [ExpEquivB, Bool.false_eq_true] at heqv
          case array ys =>
            show (marshalList s xs).map JSONValue.arr = (marshalList s ys).map JSONValue.arr
            rw [marshalList_congr s xs ys (eqvList_length xs ys heqv) ?_]
            intro x y hmzip
            apply ih
            · have h1 : sizeE x < sizeEList xs :=
                sizeE_lt_of_mem xs x (List.of_mem_zip hmzip).1
              simp only [sizeE] at hsz
              omega
            · exact eqvList_zip xs ys heqv x y hmzip
      | hostSlice xs =>
          cases e' <;> simp only [ExpEquivB, Bool.false_eq_true] at heqv
          case hostSlice ys =>
            show (marshalList s xs).map JSONValue.arr = (marshalList s ys).map JSONValue.arr
            rw [marshalList_congr s xs ys (eqvList_length xs ys heqv) ?_]
            intro x y hmzip
            apply ih
            · have h1 : sizeE x < sizeEList xs :=
                sizeE_lt_of_mem xs x (List.of_mem_zip hmzip).1
              simp only [sizeE] at hsz
              omega
            · exact eqvList_zip xs ys heqv x y hmzip
      | hostStruct fs =>
          cases e' <;> simp only [ExpEquivB, Bool.false_eq_true] at heqv
          case hostStruct gs =>
            show (marshalFields s fs).map JSONValue.obj = (marshalFields s gs).map JSONValue.obj
            rw [marshalFieldsPw_congr s fs gs (eqvFieldsPw_keys fs gs heqv) ?_]
            intro p q hmzip
            apply ih
            · have h1 : sizeE p.2 < sizeEFields fs :=
                sizeE_lt_of_mem_fields fs p.1 p.2
                  (by rw [Prod.mk.eta]; exact (List.of_mem_zip hmzip).1)
              simp only [sizeE] at hsz
              omega
            · exact eqvFieldsPw_zip fs gs heqv p q hmzip
      | object fs =>
          cases e' <;> simp only [ExpEquivB, Bool.false_eq_true] at heqv
          case object gs =>
            simp only [Bool.and_eq_true, decide_eq_true_eq, beq_iff_eq] at heqv
            obtain ⟨⟨⟨hndF, hndG⟩, hlen⟩, hlk⟩ := heqv
            show (marshalFields s fs).map (fun l => JSONValue.obj (sortByKey l)) =
              (marshalFields s gs).map (fun l => JSONValue.obj (sortByKey l))
            apply marshalFields_eqvLookup s fs gs hndF hndG hlen hlk
            intro k x y hx hy
            apply ih
            · have h1 : sizeE x < sizeEFields fs :=
                sizeE_lt_of_mem_fields fs k x (lookup_mem hx)
              simp only [sizeE] at hsz
              omega
            · obtain ⟨y', hy', hxy⟩ := eqvFields_forall fs gs hlk k x (lookup_mem hx)
              rw [hy'] at hy
              simp only [Option.some.injEq] at hy
              rw [← hy]
              exact hxy
      | hostMap fs =>
          cases e' <;> simp only [ExpEquivB, Bool.false_eq_true] at heqv
          case hostMap gs =>
            simp only [Bool.and_eq_true, decide_eq_true_eq, beq_iff_eq] at heqv
            obtain ⟨⟨⟨hndF, hndG⟩, hlen⟩, hlk⟩ := heqv
            show (marshalFields s fs).map (fun l => JSONValue.obj (sortByKey l)) =
              (marshalFields s gs).map (fun l => JSONValue.obj (sortByKey l))
            apply marshalFields_eqvLookup s fs gs hndF hndG hlen hlk
            intro k x y hx hy
            apply ih
            · have h1 : sizeE x < sizeEFields fs :=
                sizeE_lt_of_mem_fields fs k x (lookup_mem hx)
              simp only [sizeE] at hsz
              omega
            · obtain ⟨y', hy', hxy⟩ := eqvFields_forall fs gs hlk k x (lookup_mem hx)
              rw [hy'] at hy
              simp only [Option.some.injEq] at hy
              rw [← hy]
              exact hxy

theorem expectedCanon_eqv (e e' : ExpectedNode) (h : ExpEquivB e e' = true)
    (s : CaptureStore) : expectedCanon s e = expectedCanon s e' := by
  unfold expectedCanon
  rw [marshal_eqv (sizeE e) e e' le_rfl h s]
  cases marshalGo s e' with
  | none => simp [notMarshalableText_eqv e e' h]
  | some j => rfl

theorem typeMismatchDiff_eqv (e e' : ExpectedNode) (h : ExpEquivB e e' = true) :
    ∀ s a path, typeMismatchDiff s e a path = typeMismatchDiff s e' a path := by
  intro s a path
  unfold typeMismatchDiff
  rw [expectedCanon_eqv e e' h s]

theorem opaqueCompare_eqv (e e' : ExpectedNode) (h : ExpEquivB e e' = true) :
    ∀ s a path, opaqueCompare e s a path = opaqueCompare e' s a path := by
  intro s a path
  unfold opaqueCompare
  rw [marshal_eqv (sizeE e) e e' le_rfl h s]
  cases marshalGo s e' with
  | none => rw [notMarshalableText_eqv e e' h]
  | some j => rfl

theorem zip_fst_eq {β γ : Type} : ∀ (l1 : List (String × β)) (l2 : List (String × γ)),
    l1.map Prod.fst = l2.map Prod.fst →
    ∀ p q, (p, q) ∈ l1.zip l2 → p.1 = q.1 := by
  intro l1
  induction l1 with
  | nil => intro l2 _ p q hm; simp at hm
  | cons p0 l1' ih =>
      intro l2 hkeys p q hm
      cases l2 with
      | nil => simp at hm
      | cons q0 l2' =>
          simp only [List.map_cons, List.cons.injEq] at hkeys
          rw [List.zip_cons_cons] at hm
          rcases List.mem_cons.mp hm with hm | hm
          · simp only [Prod.mk.injEq] at hm
            obtain ⟨h1, h2⟩ := hm
            subst h1; subst h2
            exact hkeys.1
          · exact ih l2' hkeys.2 p q hm

instance : IsAntisymm String (fun a b => strLE a b = true) :=
  ⟨fun _ _ h1 h2 => string_le_antisymm h1 h2⟩

theorem sortByKey_keys_sorted {β : Type} (l : List (String × β)) :
    List.Sorted (fun a b : String => strLE a b = true) ((sortByKey l).map Prod.fst) :=
  List.Pairwise.map Prod.fst (fun _ _ h => h) (sortByKey_sorted l)

theorem sortByKey_keys_eq {β γ : Type} (l1 : List (String × β)) (l2 : List (String × γ))
    (hp : (l1.map Prod.fst).Perm (l2.map Prod.fst)) :
    (sortByKey l1).map Prod.fst = (sortByKey l2).map Prod.fst :=
  List.eq_of_perm_of_sorted
    (((sortByKey_perm l1).map Prod.fst).trans
      (hp.trans ((sortByKey_perm l2).map Prod.fst).symm))
    (sortByKey_keys_sorted l1) (sortByKey_keys_sorted l2)

theorem missingKeyDiffs_congr (s : CaptureStore) (path : String) (ks : List String) :
    ∀ (l1 l2 : List (String × ExpectedNode)),
    l1.map Prod.fst = l2.map Prod.fst →
    (∀ p q, (p, q) ∈ l1.zip l2 → expectedCanon s p.2 = expectedCanon s q.2) →
    missingKeyDiffs s path ks l1 = missingKeyDiffs s path ks l2 := by
  intro l1
  induction l1 with
  | nil =>
      intro l2 hkeys _
      cases l2 with
      | nil => rfl
      | cons q l2' => simp at hkeys
  | cons p l1' ih =>
      intro l2 hkeys hpt
      cases l2 with
      | nil => simp at hkeys
      | cons q l2' =>
          obtain ⟨k, x⟩ := p
          obtain ⟨k', y⟩ := q
          simp only [List.map_cons, List.cons.injEq] at hkeys
          obtain ⟨hk, hks⟩ := hkeys
          subst hk
          simp only [missingKeyDiffs]
          rw [hpt (k, x) (k, y) (by rw [List.zip_cons_cons]; simp)]
          rw [ih l2' hks
            (fun p' q' hm => hpt p' q'
              (by rw [List.zip_cons_cons]; exact List.mem_cons_of_mem _ hm))]

theorem walkObjActual_congr (cfs cfs' : List (String × Cmp))
    (h : ∀ k, (cfs.lookup k = none ∧ cfs'.lookup k = none) ∨
      ∃ c c', cfs.lookup k = some c ∧ cfs'.lookup k = some c' ∧
        ∀ s a p, c s a p = c' s a p) :
    ∀ afs path s, walkObjActual cfs afs path s = walkObjActual cfs' afs path s := by
  intro afs
  induction afs with
  | nil => intro path s; rfl
  | cons pa rest ih =>
      intro path s
      obtain ⟨k, av⟩ := pa
      rcases h k with ⟨h1, h2⟩ | ⟨c, c', h1, h2, hcc⟩
      · simp only [walkObjActual, h1, h2]
        rw [ih path s]
      · simp only [walkObjActual, h1, h2]
        rw [hcc s av (childPath path k)]
        rw [ih path ((c' s av (childPath path k)).2)]

theorem walkArray_congr : ∀ (ps qs : List (ExpectedNode × Cmp)),
    ps.length = qs.length →
    (∀ p q, (p, q) ∈ ps.zip qs →
      (∀ s, expectedCanon s p.1 = expectedCanon s q.1) ∧
      ∀ s a path, p.2 s a path = q.2 s a path) →
    ∀ as_ i path s, walkArray ps as_ i path s = walkArray qs as_ i path s := by
  intro ps
  induction ps with
  | nil =>
      intro qs hlen _ as_ i path s
      cases qs with
      | nil => rfl
      | cons q qs' => simp at hlen
  | cons p ps' ih =>
      intro qs hlen hpt as_ i path s
      cases qs with
      | nil => simp at hlen
      | cons q qs' =>
          obtain ⟨e, c⟩ := p
          obtain ⟨e', c'⟩ := q
          have hhd := hpt (e, c) (e', c') (by rw [List.zip_cons_cons]; simp)
          have htl : ∀ p' q', (p', q') ∈ ps'.zip qs' →
              (∀ s2, expectedCanon s2 p'.1 = expectedCanon s2 q'.1) ∧
              ∀ s2 a2 path2, p'.2 s2 a2 path2 = q'.2 s2 a2 path2 :=
            fun p' q' hm => hpt p' q'
              (by rw [List.zip_cons_cons]; exact List.mem_cons_of_mem _ hm)
          have hlen' : ps'.length = qs'.length := by simpa using hlen
          cases as_ with
          | nil =>
              simp only [walkArray]
              have he : expectedCanon s e = expectedCanon s e' := hhd.1 s
              rw [he]
              rw [ih qs' hlen' htl [] (i + 1) path s]
          | cons a as' =>
              simp only [walkArray]
              have hc : c s a (idxPath path i) = c' s a (idxPath path i) :=
                hhd.2 s a (idxPath path i)
              rw [hc]
              rw [ih qs' hlen' htl as' (i + 1) path ((c' s a (idxPath path i)).2)]

theorem compareList_zip_mem2 : ∀ (xs ys : List ExpectedNode)
    (p q : ExpectedNode × Cmp), (p, q) ∈ (compareList xs).zip (compareList ys) →
    p.2 = compareV p.1 ∧ q.2 = compareV q.1 ∧ (p.1, q.1) ∈ xs.zip ys
  | [], ys, p, q => by intro h; simp [compareList] at h
  | x :: rest, ys, p, q => by
      cases ys with
      | nil => intro h; simp [compareList] at h
      | cons y yrest =>
          intro h
          rw [show compareList (x :: rest) = (x, compareV x) :: compareList rest from rfl,
            show compareList (y :: yrest) = (y, compareV y) :: compareList yrest from rfl,
            List.zip_cons_cons] at h
          rcases List.mem_cons.mp h with h | h
          · simp only [Prod.mk.injEq] at h
            obtain ⟨h1, h2⟩ := h
            subst h1; subst h2
            exact ⟨rfl, rfl, by rw [List.zip_cons_cons]; simp⟩
          · obtain ⟨h1, h2, h3⟩ := compareList_zip_mem2 rest yrest p q h
            exact ⟨h1, h2, by rw [List.zip_cons_cons]; exact List.mem_cons_of_mem _ h3⟩

theorem eqv_compare : ∀ (N : Nat) (e e' : ExpectedNode), sizeE e ≤ N →
    ExpEquivB e e' = true →
    ∀ s a path, compareV e s a path = compareV e' s a path := by
  intro N
  induction N with
  | zero =>
      intro e e' hsz
      exact absurd hsz (by have := sizeE_pos e; omega)
  | succ n ih =>
      intro e e' hsz heqv s a path
      cases e with
      | null =>
          cases e' <;> simp only [ExpEquivB, Bool.false_eq_true] at heqv
          rfl
      | bool b =>
          cases e' <;>
            simp only [ExpEquivB, beq_iff_eq, Bool.false_eq_true] at heqv
          subst heqv; rfl
      | int m =>
          cases e' <;>
            simp only [ExpEquivB, beq_iff_eq, Bool.false_eq_true] at heqv
          subst heqv; rfl
      | str t =>
          cases e' <;>
            simp only [ExpEquivB, beq_iff_eq, Bool.false_eq_true] at heqv
          subst heqv; rfl
      | capture slot ty =>
          cases e' <;> simp only [ExpEquivB, Bool.and_eq_true, beq_iff_eq,
            decide_eq_true_eq, Bool.false_eq_true] at heqv
          obtain ⟨h1, h2⟩ := heqv
          subst h1; subst h2; rfl
      | failing r t =>
          cases e' <;> simp only [ExpEquivB, Bool.and_eq_true, beq_iff_eq,
            Bool.false_eq_true] at heqv
          obtain ⟨h1, h2⟩ := heqv
          subst h1; subst h2; rfl
      | hostStruct fs =>
          cases e' <;> simp only [ExpEquivB, Bool.false_eq_true] at heqv
          case hostStruct gs =>
            exact opaqueCompare_eqv (.hostStruct fs) (.hostStruct gs)
              (by simp only [ExpEquivB]; exact heqv) s a path
      | hostMap fs =>
          cases e' <;> simp only [ExpEquivB, Bool.false_eq_true] at heqv
          case hostMap gs =>
            exact opaqueCompare_eqv (.hostMap fs) (.hostMap gs)
              (by simp only [ExpEquivB]; exact heqv) s a path
      | hostSlice xs =>
          cases e' <;> simp only [ExpEquivB, Bool.false_eq_true] at heqv
          case hostSlice ys =>
            exact opaqueCompare_eqv (.hostSlice xs) (.hostSlice ys)
              (by simp only [ExpEquivB]; exact heqv) s a path
      | array xs =>
          cases e' <;> simp only [ExpEquivB, Bool.false_eq_true] at heqv
          case array ys =>
            have hE : ExpEquivB (.array xs) (.array ys) = true := by
              simp only [ExpEquivB]; exact heqv
            cases a
            case arr as_ =>
              show walkArray (compareList xs) as_ 0 path s =
                walkArray (compareList ys) as_ 0 path s
              apply walkArray_congr
              · rw [compareList_length, compareList_length]
                exact eqvList_length xs ys heqv
              · intro p q hm
                obtain ⟨hp2, hq2, hmz⟩ := compareList_zip_mem2 xs ys p q hm
                have hxy : ExpEquivB p.1 q.1 = true :=
                  eqvList_zip xs ys heqv p.1 q.1 hmz
                constructor
                · intro s2
                  exact expectedCanon_eqv p.1 q.1 hxy s2
                · intro s2 a2 path2
                  rw [hp2, hq2]
                  apply ih
                  · have h1 : sizeE p.1 < sizeEList xs :=
                      sizeE_lt_of_mem xs p.1 (List.of_mem_zip hmz).1
                    simp only [sizeE] at hsz
                    omega
                  · exact hxy
            all_goals (simp only [compareV]; rw [typeMismatchDiff_eqv _ _ hE])
      | object fs =>
          cases e' <;> simp only [ExpEquivB, Bool.false_eq_true] at heqv
          case object gs =>
            have hE : ExpEquivB (.object fs) (.object gs) = true := by
              simp only [ExpEquivB]; exact heqv
            simp only [Bool.and_eq_true, decide_eq_true_eq, beq_iff_eq] at heqv
            obtain ⟨⟨⟨hndF, hndG⟩, hlen⟩, hlk⟩ := heqv
            have hkp := eqv_keys_perm hndF hlen hlk
            cases a
            case obj afs =>
              have hwoa : ∀ s2, walkObjActual (compareFieldsFns fs) afs path s2 =
                  walkObjActual (compareFieldsFns gs) afs path s2 := by
                intro s2
                apply walkObjActual_congr
                intro k
                rw [lookup_compareFieldsFns, lookup_compareFieldsFns]
                cases hfk : fs.lookup k with
                | none =>
                    left
                    have hgk : gs.lookup k = none := by
                      rw [lookup_eq_none_iff]
                      intro hin
                      exact (lookup_eq_none_iff fs k).mp hfk (hkp.mem_iff.mpr hin)
                    rw [hgk]
                    exact ⟨rfl, rfl⟩
                | some x =>
                    obtain ⟨y, hy, hxy⟩ := eqvFields_forall fs gs hlk k x (lookup_mem hfk)
                    right
                    refine ⟨compareV x, compareV y, rfl, by rw [hy]; rfl, ?_⟩
                    intro s3 a3 p3
                    apply ih
                    · have h1 : sizeE x < sizeEFields fs :=
                        sizeE_lt_of_mem_fields fs k x (lookup_mem hfk)
                      simp only [sizeE] at hsz
                      omega
                    · exact hxy
              have hC1 : compareV (.object fs) s (.obj afs) path =
                  ((walkObjActual (compareFieldsFns fs) afs path s).1 ++
                    missingKeyDiffs (walkObjActual (compareFieldsFns fs) afs path s).2
                      path (afs.map Prod.fst) (sortByKey fs),
                   (walkObjActual (compareFieldsFns fs) afs path s).2) := rfl
              have hC2 : compareV (.object gs) s (.obj afs) path =
                  ((walkObjActual (compareFieldsFns gs) afs path s).1 ++
                    missingKeyDiffs (walkObjActual (compareFieldsFns gs) afs path s).2
                      path (afs.map Prod.fst) (sortByKey gs),
                   (walkObjActual (compareFieldsFns gs) afs path s).2) := rfl
              rw [hC1, hC2, hwoa s]
              have hkeq := sortByKey_keys_eq fs gs hkp
              have hmkd : ∀ s2, missingKeyDiffs s2 path (afs.map Prod.fst) (sortByKey fs) =
                  missingKeyDiffs s2 path (afs.map Prod.fst) (sortByKey gs) := by
                intro s2
                apply missingKeyDiffs_congr s2 path (afs.map Prod.fst) _ _ hkeq
                intro p q hm
                have hk : p.1 = q.1 := zip_fst_eq (sortByKey fs) (sortByKey gs) hkeq p q hm
                have hpf : (p.1, p.2) ∈ fs := (sortByKey_perm fs).subset
                  (by rw [Prod.mk.eta]; exact (List.of_mem_zip hm).1)
                have hqg : (q.1, q.2) ∈ gs := (sortByKey_perm gs).subset
                  (by rw [Prod.mk.eta]; exact (List.of_mem_zip hm).2)
                have hflk : fs.lookup p.1 = some p.2 := mem_lookup hndF hpf
                obtain ⟨y, hy, hxy⟩ := eqvFields_forall fs gs hlk p.1 p.2 (lookup_mem hflk)
                have hglk : gs.lookup q.1 = some q.2 := mem_lookup hndG hqg
                rw [hk, hglk] at hy
                simp only [Option.some.injEq] at hy
                rw [← hy] at hxy
                exact expectedCanon_eqv p.2 q.2 hxy s2
              rw [hmkd]
            all_goals (simp only [compareV]; rw [typeMismatchDiff_eqv _ _ hE])

/-- C8: for a fixed expected tree and a fixed actual payload, the diff
sequence is deterministic. Two runs of a Go program that builds the
expected tree from unordered mappings see the same tree up to map
enumeration order, i.e. any `ExpEquivB`-equivalent pair of trees; the
comparator's output — every Kind, Pointer, ExpectedJSON and ActualJSON
string, and the order between sibling diffs — is invariant under that
re-enumeration, so repeated calls produce identical diff sequences. -/
theorem C8_order_determinism (e e' : ExpectedNode) (h : ExpEquivB e e' = true)
    (s : CaptureStore) (payload : List Nat) :
    DiffAgainst s e payload = DiffAgainst s e' payload := by
  unfold DiffAgainst
  cases hp : parsePayload payload with
  | error msg =>
      simp only
      rw [expectedCanon_eqv e e' h s]
  | ok a =>
      simp only
      exact eqv_compare (sizeE e) e e' le_rfl h s a ""

/-- A map-built expected tree, in one enumeration order. -/
def c8e : ExpectedNode :=
  .object [("a", .int 1), ("b", .array [.int 1, .int 2]),
           ("c", .hostMap [("x", .str "v"), ("y", .null)])]

/-- The same expected tree, enumerated in a different order at both map
levels. -/
def c8e2 : ExpectedNode :=
  .object [("c", .hostMap [("y", .null), ("x", .str "v")]),
           ("b", .array [.int 1, .int 2]), ("a", .int 1)]

/-- A fixed actual payload with a fixed textual key order. -/
def c8payload : List Nat := strBytes "\x7b\"b\":[1,2,3],\"c\":true\x7d"

set_option maxRecDepth 40000 in
/-- Witness: C8 applied to two enumeration orders of the same map-built
expected tree against a fixed payload. -/
theorem C8_order_determinism_witness :
    ExpEquivB c8e c8e2 = true ∧
      DiffAgainst [] c8e c8payload = DiffAgainst [] c8e2 c8payload :=
  ⟨by decide, C8_order_determinism c8e c8e2 (by decide) [] c8payload⟩
